import Mathlib

/-!
Verification of the Raft build tool (tlein/Raft).

The source is TypeScript running on Node.  We shallowly embed the parts of the
program the claims are about:

* `Path` (src/Src/Raft/Raft.ts 179-227): an immutable wrapper around a string.
  Its operations `append`, `parent`, `isRoot` delegate to Node's posix `path`
  module (`path.join`, `path.dirname`, `path.parse`), which we model faithfully
  on `List Char` (the character-list view of JavaScript strings).
* `Project.find` (src/Src/Raft/Raft.ts 249-264 and src/Src/Raft/Project.ts
  36-51): the upward marker-directory search.
* the derived directory functions (src/Src/Raft/Project.ts 80-108).
* `createDependency` / `createRepository` (src/Src/Raft/Raft.ts 134-149).
* `System.execute`'s logging (src/Src/Raft/Raft.ts 35-62).
* `Path.createDirectory` via `mkdirp` (src/Src/Raft/Raft.ts 213-222) over an
  explicit file-system state.
* `Project.dependencies` (src/Src/Raft/Project.ts 71-73) over an explicit
  store of JavaScript array references.
* the build orchestration (`build` in the CLI entry file, `getDependency` in
  src/Src/Raft/Raft.ts 157-169) as a small-step transition system whose
  nondeterministic interleaving models the concurrently running bluebird
  promise chains.
-/

namespace Raft

/-- Character-list model of a JavaScript string. -/
abbrev Chars := List Char

/-- The segment `"."`. -/
def dotSeg : Chars := ['.']

/-- The segment `".."`. -/
def dotdotSeg : Chars := ['.', '.']

/-- Concatenate path pieces with `'/'` between consecutive pieces, exactly as
Node's `path.posix.join` accumulates `joined += '/' + arg` and as
`normalizeString` accumulates `res += '/' + slice`. -/
def joinSep : List Chars → Chars
  | [] => []
  | [x] => x
  | x :: y :: t => x ++ '/' :: joinSep (y :: t)

/-- Prepend a character to the first piece of a split. -/
def consHead (c : Char) : List Chars → List Chars
  | [] => [[c]]
  | s :: ss => (c :: s) :: ss

/-- Split a string at every `'/'`.  This is the segment decomposition that the
character scan in Node's `path.posix` functions (`normalizeString`, `parse`,
`dirname`) performs: segments are the maximal slash-free runs, with an empty
segment between adjacent slashes and at a leading or trailing slash. -/
def splitSlash : Chars → List Chars
  | [] => [[]]
  | c :: rest => if c = '/' then [] :: splitSlash rest else consHead c (splitSlash rest)

/-- One segment step of Node's `path.posix` `normalizeString(path, allowAboveRoot)`:
empty segments and `"."` are skipped; `".."` pops the innermost stacked segment
unless the stack is empty or its top is itself `".."`, in which case `".."` is
kept only when `allowAboveRoot` (i.e. for relative paths); every other segment
is stacked.  The stack is kept innermost-first (head = most recent segment). -/
def pushSeg (allow : Bool) (stack : List Chars) (seg : Chars) : List Chars :=
  if seg = [] ∨ seg = dotSeg then stack
  else if seg = dotdotSeg then
    match stack with
    | [] => if allow then [dotdotSeg] else []
    | top :: rest => if top = dotdotSeg then (if allow then dotdotSeg :: top :: rest else top :: rest) else rest
  else seg :: stack

/-- Run `normalizeString`'s segment processing over a list of segments. -/
def normStack (allow : Bool) (segs : List Chars) : List Chars :=
  segs.foldl (pushSeg allow) []

/-- Whether a string begins with `'/'` (Node's `isAbsolute` test inside
`path.posix.normalize`). -/
def absOf (s : Chars) : Bool := s.head? = some '/'

/-- Whether a string ends with `'/'` (Node's `trailingSeparator` test inside
`path.posix.normalize`). -/
def trailOf (s : Chars) : Bool := s.getLast? = some '/'

/-- Reassemble the result of `path.posix.normalize` from the absoluteness flag,
the trailing-separator flag and the processed segment stack, following the tail
of Node's `normalize`:

```
path = normalizeString(path, !isAbsolute);
if (path.length === 0 && !isAbsolute) path = '.';
if (path.length > 0 && trailingSeparator) path += '/';
if (isAbsolute) return '/' + path;
return path;
```
-/
def renderNorm (abs trailing : Bool) (stack : List Chars) : Chars :=
  let core := joinSep stack.reverse
  let core := if core = [] ∧ abs = false then dotSeg else core
  let core := if core ≠ [] ∧ trailing = true then core ++ ['/'] else core
  if abs then '/' :: core else core

/-- Node's `path.posix.normalize`. -/
def normalize (s : Chars) : Chars :=
  if s = [] then dotSeg
  else renderNorm (absOf s) (trailOf s) (normStack (!absOf s) (splitSlash s))

/-- Node's `path.posix.join`: drop empty arguments, concatenate the rest with
`'/'`, and normalize; with no non-empty argument the result is `"."`. -/
def joinParts (parts : List Chars) : Chars :=
  let ne := parts.filter (fun p => decide (p ≠ []))
  if ne = [] then dotSeg else normalize (joinSep ne)

/-- `Path` (src/Src/Raft/Raft.ts 179-184): an immutable object whose data model
is a string. -/
structure Path where
  path : Chars
deriving DecidableEq, Repr

/-- `Path.append` (src/Src/Raft/Raft.ts 186-189):
`new Path(npath.join(this.path, ...segments))`.  Pure: it is a function of the
strings alone and touches no file-system state. -/
def Path.append (p : Path) (segs : List Chars) : Path :=
  ⟨joinParts (p.path :: segs)⟩

/-- The backwards scan over indices `len-1 … 1` that Node's `path.posix`
`dirname` and `parse` both perform, realised on the reversed tail of the
string: skip the trailing slashes, skip the basename; what is left starts at
the slash separating the dirname from the basename (empty when there is no
such slash at index ≥ 1). -/
def tailScan (tail : Chars) : Chars :=
  (tail.reverse.dropWhile (fun c => decide (c = '/'))).dropWhile (fun c => decide (c ≠ '/'))

/-- Node's `path.posix.dirname`, the implementation of `Path.parent`
(src/Src/Raft/Raft.ts 191-193): cut just before the slash separating dirname
from basename; with no such slash the result is `'/'` for a rooted string and
`'.'` otherwise, and a separating slash at index 1 of a rooted string yields
`'//'`. -/
def dirname (s : Chars) : Chars :=
  match s with
  | [] => dotSeg
  | c0 :: tail =>
    match tailScan tail with
    | [] => if c0 = '/' then ['/'] else dotSeg
    | _ :: rest => if c0 = '/' ∧ rest = [] then ['/', '/'] else c0 :: rest.reverse

/-- `Path.parent` (src/Src/Raft/Raft.ts 191-193): `new Path(npath.dirname(path))`. -/
def Path.parent (p : Path) : Path := ⟨dirname p.path⟩

/-- `Path.isRoot` (src/Src/Raft/Raft.ts 195-198):
`parsed.root === parsed.dir && parsed.root !== ""` for Node's
`path.posix.parse`.  `root` is `"/"` exactly when the string starts with `'/'`
(so every relative string fails the `root !== ""` test), and `dir` is the
prefix before the basename, computed by the same reversed-tail scan as
`dirname`:  `dir` equals `"/"` exactly when there is no separating slash at
index ≥ 1, or the separating slash sits at index 1. -/
def isRoot (s : Chars) : Bool :=
  match s with
  | [] => false
  | c0 :: tail =>
    if c0 = '/' then
      match tailScan tail with
      | [] => true
      | _ :: rest => decide (rest = [])
    else false

/-- `Path.isRoot` on the wrapper type. -/
def Path.isRoot (p : Path) : Bool := Raft.isRoot p.path

-- Sanity checks of the path model against Node's posix behaviour.
example : normalize "a/..".toList = dotSeg := by decide
example : normalize "/../a".toList = "/a".toList := by decide
example : normalize "a/b//c/".toList = "a/b/c/".toList := by decide
example : normalize "//".toList = "/".toList := by decide
example : joinParts ["".toList, "".toList] = dotSeg := by decide
example : joinParts ["a".toList, "..".toList, "c".toList] = "c".toList := by decide
example : dirname "/a/b".toList = "/a".toList := by decide
example : dirname "/a".toList = "/".toList := by decide
example : dirname "a".toList = dotSeg := by decide
example : dirname "//a".toList = "//".toList := by decide
example : isRoot "/".toList = true := by decide
example : isRoot "/a".toList = true := by decide
example : isRoot "//a".toList = true := by decide
example : isRoot "/a/b".toList = false := by decide
example : isRoot "a/b".toList = false := by decide
example : isRoot "".toList = false := by decide

/-! ## Project discovery (src/Src/Raft/Raft.ts 249-264, src/Src/Raft/Project.ts 36-51)

```
var paths = [path];
var raftDir = new Path("Raft");
while (!_.last(paths).isRoot()) { paths.push(_.last(paths).parent()); }
var rootDir = _.first(_.filter(paths, (path) => path.append(raftDir).exists()));
if (rootDir) { return new Project(rootDir); } else { return null; }
```

The `while` loop has no bound in the source; we give it explicit fuel and
return `none` when the fuel is exhausted, so that a run of the model that
yields `some` chain is exactly a terminating run of the loop. -/

/-- The marker directory name `"Raft"`. -/
def raftChars : Chars := "Raft".toList

/-- The candidate chain built by `Project.find`'s loop: the start path, then
parents, ending at (and including) the first path satisfying `isRoot()`.
`none` means the loop has not terminated within `fuel` iterations. -/
def parentChainFuel : Nat → Chars → Option (List Chars)
  | 0, p => if isRoot p then some [p] else none
  | fuel + 1, p => if isRoot p then some [p] else (parentChainFuel fuel (dirname p)).map (p :: ·)

/-- `Project.find`, with the file system abstracted as the decidable existence
predicate `ex` used by `path.append(raftDir).exists()`.  The outer `Option` is
loop termination (fuel); the inner `Option` is the source's project-or-null
result (`none` is the `ProjectNotFound` failure).  The body is the source's
`_.first(_.filter(paths, p => p.append(raftDir).exists()))`, returning the
root directory the constructed project is rooted at. -/
def findRaftRoot (ex : Chars → Bool) (fuel : Nat) (p : Chars) : Option (Option Chars) :=
  (parentChainFuel fuel p).map fun paths =>
    (paths.filter (fun q => ex (Path.append ⟨q⟩ [raftChars]).path)).head?

/-! ## Build targets and derived directories (src/Src/Raft/Project.ts 14-108)

`BuildConfig.Build` carries `platform`, `architecture` (and a deploy flag not
used by the dependency directories); `Raft.ts`'s `Build` interface is
`{ platform : string, architecture : string }`. -/

/-- A build target. -/
structure Build where
  platform : Chars
  architecture : Chars
deriving DecidableEq, Repr

/-- `Project.RAFT_DIR = new Path('Raft')`. -/
def RAFT_DIR : Path := ⟨raftChars⟩

/-- `Project.DEPENDENCY_DIR = RAFT_DIR.append('libs')`. -/
def DEPENDENCY_DIR : Path := RAFT_DIR.append ["libs".toList]

/-- `Project.DEPENDENCY_SRC_DIR = DEPENDENCY_DIR.append('src')`. -/
def DEPENDENCY_SRC_DIR : Path := DEPENDENCY_DIR.append ["src".toList]

/-- `Project.DEPENDENCY_BUILD_DIR = DEPENDENCY_DIR.append('build')`. -/
def DEPENDENCY_BUILD_DIR : Path := DEPENDENCY_DIR.append ["build".toList]

/-- `Project.DEPENDENCY_INSTALL_DIR = DEPENDENCY_DIR.append('install')`. -/
def DEPENDENCY_INSTALL_DIR : Path := DEPENDENCY_DIR.append ["install".toList]

/-- `dirForDependency` (src/Src/Raft/Project.ts 80-82):
`root.append(DEPENDENCY_SRC_DIR, name)`. -/
def dirForDependency (root : Path) (name : Chars) : Path :=
  root.append [DEPENDENCY_SRC_DIR.path, name]

/-- `dirForDependencyBuild` (src/Src/Raft/Project.ts 90-96):
`root.append(DEPENDENCY_BUILD_DIR, build.platform, build.architecture, name)`. -/
def dirForDependencyBuild (root : Path) (name : Chars) (b : Build) : Path :=
  root.append [DEPENDENCY_BUILD_DIR.path, b.platform, b.architecture, name]

/-- `dirForDependencyInstall` (src/Src/Raft/Project.ts 103-108):
`root.append(DEPENDENCY_INSTALL_DIR, build.platform, build.architecture)`. -/
def dirForDependencyInstall (root : Path) (b : Build) : Path :=
  root.append [DEPENDENCY_INSTALL_DIR.path, b.platform, b.architecture]

example : DEPENDENCY_BUILD_DIR.path = "Raft/libs/build".toList := by decide
example : DEPENDENCY_INSTALL_DIR.path = "Raft/libs/install".toList := by decide

/-! ## Dependency resolution (src/Src/Raft/Raft.ts 123-149) -/

/-- `RepositoryDescriptor { type : string, location : string }`
(src/Src/Raft/Raft.ts 129-132).  A missing `type` field is modelled as the
empty string: JavaScript's `if (repoDescriptor.type)` is false exactly for a
missing/`undefined`/empty `type`. -/
structure RepositoryDescriptor where
  type : Chars
  location : Chars
deriving DecidableEq, Repr

/-- `DependencyDescriptor { name, repository, buildSystem }`
(src/Src/Raft/Raft.ts 123-127). -/
structure DependencyDescriptor where
  name : Chars
  repository : RepositoryDescriptor
  buildSystem : Chars
deriving DecidableEq, Repr

/-- The errors thrown by resolution: `Error("Unknown repository type")` and
`Error("unknown build system type")`, which the specification names
`UnsupportedRepository` and `UnsupportedBuildSystem`. -/
inductive RaftError where
  | unsupportedRepository
  | unsupportedBuildSystem
deriving DecidableEq, Repr

/-- The one repository variant, `GitRepository(uri)` (src/Src/Raft/Raft.ts 76-86). -/
inductive Repository where
  | git (uri : Chars)
deriving DecidableEq, Repr

/-- The dependency object produced by `createDependency`: always a
`CMakeDependency(name, repo)` (src/Src/Raft/Raft.ts 105-121, 137). -/
inductive DependencyObj where
  | cmakeDependency (name : Chars) (repo : Repository)
deriving DecidableEq, Repr

/-- `createRepository` (src/Src/Raft/Raft.ts 143-149):

```
if (repoDescriptor.type) { return new GitRepository(repoDescriptor.location); }
else { throw Error("Unknown repository type"); }
```
-/
def createRepository (d : RepositoryDescriptor) : Except RaftError Repository :=
  if d.type ≠ [] then .ok (.git d.location) else .error .unsupportedRepository

/-- `createDependency` (src/Src/Raft/Raft.ts 134-141):

```
var repo = createRepository(dependencyDescriptor.repository);
if (dependencyDescriptor.buildSystem === "cmake") {
  return new CMakeDependency(dependencyDescriptor.name, repo);
} else { throw Error("unknown build system type"); }
```

A throw from `createRepository` propagates out of `createDependency`. -/
def createDependency (d : DependencyDescriptor) : Except RaftError DependencyObj := do
  let repo ← createRepository d.repository
  if d.buildSystem = "cmake".toList then
    .ok (.cmakeDependency d.name repo)
  else
    .error .unsupportedBuildSystem

/-! ## `System.execute` logging (src/Src/Raft/Raft.ts 35-62)

We model the sequence of `raftlog(tag, message)` lines emitted by one
invocation, as a function of the command, the options, whether the working
directory was newly created (`createDirectory()`'s resolved boolean) and
whether the spawned process succeeded.  A log line is a `(tag, message)` pair,
matching `raftlog`'s `${tag}:: ${message}` format. -/

/-- `ExecuteOptions { cwd?, tag? }` (src/Src/Raft/Raft.ts 22-33). -/
structure ExecuteOptions where
  cwd : Option Path
  tag : Option Chars
deriving DecidableEq, Repr

/-- JavaScript's `a || b` for an optional string `a`: a missing (`undefined`)
or empty — falsy — `a` falls back to `b`.  This is the semantics of the
source's `var tag = options.tag || command`. -/
def orFalsy (a : Option Chars) (b : Chars) : Chars :=
  match a with
  | some t => if t = [] then b else t
  | none => b

/-- The log lines emitted by `System.execute(command, options)`:

```
var tag = options.tag || command;
if (options.cwd) {
  raftlog(command, `Running in ${options.cwd.toString()}`);
  start = options.cwd.createDirectory().then((created) => {
    if (created) { raftlog(tag, `Created ${options.cwd.toString()}`); } });
} else { raftlog(tag, "Running in the current working directory"); }
return start.then(...).then((buffers) => { raftlog(tag, "Finished successfullly"); ... });
```

`created` is the boolean `createDirectory()` resolved with, and `processOk`
is whether `child_process.exec` succeeded (on failure the final `then` never
runs, so no completion line is logged). -/
def executeLogs (command : Chars) (options : ExecuteOptions)
    (created : Bool) (processOk : Bool) : List (Chars × Chars) :=
  let tag := orFalsy options.tag command
  let startLogs :=
    match options.cwd with
    | some d =>
        (command, "Running in ".toList ++ d.path)
          :: (if created then [(tag, "Created ".toList ++ d.path)] else [])
    | none => [(tag, "Running in the current working directory".toList)]
  startLogs ++ (if processOk then [(tag, "Finished successfullly".toList)] else [])

-- An empty `tag` is falsy, so `options.tag || command` falls back to the
-- command string, as in the source.
example : executeLogs "c".toList ⟨none, some []⟩ false true
    = [("c".toList, "Running in the current working directory".toList),
       ("c".toList, "Finished successfullly".toList)] := by decide
example : executeLogs "c".toList ⟨none, none⟩ false true
    = [("c".toList, "Running in the current working directory".toList),
       ("c".toList, "Finished successfullly".toList)] := by decide

/-! ## `Path.createDirectory` over an explicit file system
(src/Src/Raft/Raft.ts 213-222)

```
createDirectory() : Promise<boolean> {
  return Promise.fromNode((callback) => { mkdirp(this.path, callback); })
    .then((success) => { return true; })
    .catch((error) => { return false; });
}
```

`mkdirp` is `mkdir -p`: it creates the directory together with every missing
ancestor and calls back *successfully* when the directory already exists; it
errors when creation is impossible (e.g. a regular file occupies the path or
one of its ancestors).  We model the file system as a set of directories and a
set of regular files. -/

/-- Explicit file-system state: existing directories and regular files. -/
structure FS where
  dirs : List Chars
  files : List Chars
deriving Repr

/-- The ancestor list of a path: the path and its iterated `dirname`s, stopping
at a fixpoint or at a root (bounded by the fuel). -/
def ancestorsFuel : Nat → Chars → List Chars
  | 0, p => [p]
  | fuel + 1, p =>
      if isRoot p ∨ dirname p = p then [p] else p :: ancestorsFuel fuel (dirname p)

/-- `mkdirp(path, callback)`: create `path` and all missing ancestor
directories; error (`none`) when a regular file occupies the path or an
ancestor; succeed — also when everything already exists — otherwise. -/
def mkdirp (fs : FS) (p : Chars) : Option FS :=
  let anc := ancestorsFuel p.length p
  if anc.any (fun q => decide (q ∈ fs.files)) then none
  else some { fs with dirs := anc ++ fs.dirs }

/-- `Path.createDirectory` (src/Src/Raft/Raft.ts 213-222): resolve `true` when
`mkdirp` calls back without error, `false` when it errors. -/
def createDirectory (fs : FS) (p : Chars) : Bool × FS :=
  match mkdirp fs p with
  | some fs' => (true, fs')
  | none => (false, fs)

/-- Whether a directory exists (`Path.exists` restricted to directories). -/
def FS.dirExists (fs : FS) (p : Chars) : Bool := decide (p ∈ fs.dirs)

/-! ## `Project.dependencies` over an explicit array store
(src/Src/Raft/Project.ts 71-73)

```
dependencies() : RaftFile.DependencyDescriptor [] {
  return this.raftfile.dependencies.slice(0);
}
```

JavaScript arrays are mutable heap references, so to state what `slice(0)`
buys us we thread an explicit store of descriptor arrays: a reference is an
index into the store, `slice(0)` allocates a fresh array with the same
elements. -/

/-- A store of JavaScript descriptor arrays; a reference is an index. -/
structure Store where
  arrays : List (List DependencyDescriptor)

/-- Dereference (out-of-range reads give `[]`; valid projects stay in range). -/
def Store.get (st : Store) (r : Nat) : List DependencyDescriptor :=
  st.arrays.getD r []

/-- Allocate a fresh array. -/
def Store.alloc (st : Store) (v : List DependencyDescriptor) : Nat × Store :=
  (st.arrays.length, ⟨st.arrays ++ [v]⟩)

/-- Overwrite the array behind a reference (models any in-place mutation of
the array, element writes included). -/
def Store.set (st : Store) (r : Nat) (v : List DependencyDescriptor) : Store :=
  ⟨st.arrays.set r v⟩

/-- The part of a loaded `Project` that `dependencies()` uses: the reference to
`this.raftfile.dependencies`. -/
structure ProjectH where
  raftfileDeps : Nat

/-- `Project.dependencies` (src/Src/Raft/Project.ts 71-73):
`this.raftfile.dependencies.slice(0)` — allocate a fresh array holding the
same elements and return a reference to it. -/
def dependenciesCall (p : ProjectH) (st : Store) : Nat × Store :=
  st.alloc (st.get p.raftfileDeps)

/-! ## The build orchestration as a transition system

`getDependency` (src/Src/Raft/Raft.ts 157-169) is a promise chain

```
return dependency.download(project, build)
  .then(() => dependency.build(project, build))
  .then(() => dependency.install(project, build))
  .then(() => raftlog(dependency.name, "Ready"));
```

and the top-level `build` (CLI entry file, lines 38-49) fans out one such
chain per dependency and joins them before the root project build:

```
return Promise.map(dependencies, (dependency) => Dependency.getDependency(...))
  .then(() => project.build(buildSettings));
```

Bluebird promises are eager: `Promise.map` starts every per-dependency chain,
the chains run concurrently (each internally sequenced by `.then`), a
rejection in one chain does not stop the others (they are already running),
and the `.then` callback — the root project build — runs only when the map
promise resolves, i.e. when every chain has resolved.

We embed this as a small-step transition system over `n` pipelines.  Each
pipeline is the sequential download → build → install chain; the scheduler
nondeterministically interleaves steps of different pipelines, which is the
model of their concurrency.  The environment `env i s` fixes whether stage `s`
of pipeline `i` succeeds when it runs.  Every step appends its event to a
trace. -/

/-- The three stages of one dependency pipeline, in chain order. -/
inductive Stage where
  | download
  | build
  | install
deriving DecidableEq, Repr

/-- Where one pipeline stands: a stage whose promise is not yet created but
whose predecessor has resolved (`pending`), a stage whose work is running
(`active`), a resolved chain (`done`), or a chain rejected at a stage
(`failedAt` — the rejection propagates past the remaining `.then`s, so no
later stage ever runs). -/
inductive PipState where
  | pending (s : Stage)
  | active (s : Stage)
  | failedAt (s : Stage)
  | done
deriving DecidableEq, Repr

/-- Successor state after a stage resolves successfully: the `.then` chain
makes the next stage pending, and resolving `install` resolves the chain. -/
def advance : Stage → PipState
  | .download => .pending .build
  | .build => .pending .install
  | .install => .done

/-- Events observed during a run. -/
inductive PipeEvent (n : Nat) where
  | start (i : Fin n) (s : Stage)
  | finish (i : Fin n) (s : Stage) (ok : Bool)
  | rootBuild
deriving DecidableEq, Repr

/-- A configuration: the state of each pipeline, whether `project.build` has
been invoked, and the event trace so far. -/
structure Cfg (n : Nat) where
  pipes : Fin n → PipState
  rootStarted : Bool
  trace : List (PipeEvent n)

/-- The initial configuration: `Promise.map` has started every chain, so each
pipeline is about to run its download; the root build has not started. -/
def initCfg (n : Nat) : Cfg n :=
  ⟨fun _ => .pending .download, false, []⟩

/-- One scheduler step.  A pending stage of any pipeline may start; an active
stage may finish with the outcome `env` assigns it (failure rejects the whole
chain); `project.build` may start only when every chain has resolved — the
`.then` on `Promise.map`'s join promise. -/
inductive Step {n : Nat} (env : Fin n → Stage → Bool) : Cfg n → Cfg n → Prop where
  | startStage (c : Cfg n) (i : Fin n) (s : Stage) (h : c.pipes i = .pending s) :
      Step env c ⟨Function.update c.pipes i (.active s), c.rootStarted,
        c.trace ++ [.start i s]⟩
  | finishStage (c : Cfg n) (i : Fin n) (s : Stage) (h : c.pipes i = .active s) :
      Step env c ⟨Function.update c.pipes i (if env i s then advance s else .failedAt s),
        c.rootStarted, c.trace ++ [.finish i s (env i s)]⟩
  | startRoot (c : Cfg n) (h : ∀ i, c.pipes i = .done) (h2 : c.rootStarted = false) :
      Step env c ⟨c.pipes, true, c.trace ++ [.rootBuild]⟩

/-- Reachability from the initial configuration. -/
inductive Reach {n : Nat} (env : Fin n → Stage → Bool) : Cfg n → Prop where
  | init : Reach env (initCfg n)
  | step {c c' : Cfg n} : Reach env c → Step env c c' → Reach env c'

/-- Reachability from a given configuration (reflexive-transitive closure of
`Step`). -/
inductive ReachFrom {n : Nat} (env : Fin n → Stage → Bool) : Cfg n → Cfg n → Prop where
  | refl (c : Cfg n) : ReachFrom env c c
  | step {c c' c'' : Cfg n} : ReachFrom env c c' → Step env c' c'' → ReachFrom env c c''

/-- Whether an event belongs to pipeline `i`. -/
def isEvOf {n : Nat} (i : Fin n) : PipeEvent n → Bool
  | .start j _ => decide (j = i)
  | .finish j _ _ => decide (j = i)
  | .rootBuild => false

/-- The exact sequence of pipeline-`i` events that has occurred once pipeline
`i` has reached a given state — read off `getDependency`'s promise chain. -/
def histOf {n : Nat} (i : Fin n) : PipState → List (PipeEvent n)
  | .pending .download => []
  | .active .download => [.start i .download]
  | .pending .build => [.start i .download, .finish i .download true]
  | .active .build => [.start i .download, .finish i .download true, .start i .build]
  | .pending .install => [.start i .download, .finish i .download true, .start i .build,
      .finish i .build true]
  | .active .install => [.start i .download, .finish i .download true, .start i .build,
      .finish i .build true, .start i .install]
  | .done => [.start i .download, .finish i .download true, .start i .build,
      .finish i .build true, .start i .install, .finish i .install true]
  | .failedAt .download => [.start i .download, .finish i .download false]
  | .failedAt .build => [.start i .download, .finish i .download true, .start i .build,
      .finish i .build false]
  | .failedAt .install => [.start i .download, .finish i .download true, .start i .build,
      .finish i .build true, .start i .install, .finish i .install false]

/-- `e₁` occurs (strictly) before every occurrence of `e₂` in the trace. -/
def Prec {n : Nat} (e₁ e₂ : PipeEvent n) (tr : List (PipeEvent n)) : Prop :=
  ∀ t₁ t₂, tr = t₁ ++ e₂ :: t₂ → e₁ ∈ t₁

/-- The state/trace coupling maintained by every run: each pipeline's events
in the trace are exactly the history its state dictates; a pipeline is
`failedAt s` only when its environment fails stage `s`; the root-build flag
mirrors the root-build event; and the root build only starts with every
pipeline done. -/
def Inv {n : Nat} (env : Fin n → Stage → Bool) (c : Cfg n) : Prop :=
  (∀ i, c.trace.filter (isEvOf i) = histOf i (c.pipes i))
  ∧ (∀ i s, c.pipes i = .failedAt s → env i s = false)
  ∧ (PipeEvent.rootBuild ∈ c.trace ↔ c.rootStarted = true)
  ∧ (c.rootStarted = true → ∀ i, c.pipes i = .done)

/-- The ordering facts of interest: within each pipeline, a stage's start is
preceded by the previous stage's successful finish, and the root build is
preceded by every pipeline's successful install finish. -/
def PrecInv {n : Nat} (c : Cfg n) : Prop :=
  ∀ i : Fin n,
    Prec (.finish i .download true) (.start i .build) c.trace
    ∧ Prec (.finish i .build true) (.start i .install) c.trace
    ∧ Prec (.finish i .install true) .rootBuild c.trace

/-- A segment that `normalizeString` stacks verbatim: non-empty, not `"."`,
slash-free. -/
def goodSeg (e : Chars) : Prop := e ≠ [] ∧ e ≠ dotSeg ∧ '/' ∉ e

/-- Shape invariant of `normalizeString`'s stack (head = innermost segment):
plain stacked segments atop a run of `".."`s, and no `".."` at all in
absolute mode (`allow = false`). -/
def GoodStack (allow : Bool) (st : List Chars) : Prop :=
  ∃ front back, st = front ++ back
    ∧ (∀ e ∈ front, goodSeg e ∧ e ≠ dotdotSeg)
    ∧ (∀ e ∈ back, e = dotdotSeg)
    ∧ (allow = false → back = [])

/-- A plain path segment: non-empty, slash-free, not `"."` or `".."` — the
shape of real dependency names, platform tags and architecture tags. -/
abbrev plainSeg (s : Chars) : Prop := s ≠ [] ∧ '/' ∉ s ∧ s ≠ dotSeg ∧ s ≠ dotdotSeg

/-! ## C1 — `Project.find` locates the nearest marker directory -/

/-- `_.first(_.filter(l, f))` semantics: the head of the filtered list is `r`
exactly when the list splits as `l1 ++ r :: l2` with `f r` true and `f` false
on everything before `r`. -/
theorem head?_filter_eq_some {α : Type} (f : α → Bool) (l : List α) (r : α) :
    (l.filter f).head? = some r ↔
      ∃ l1 l2, l = l1 ++ r :: l2 ∧ f r = true ∧ ∀ q ∈ l1, f q = false := by
  induction l with
  | nil =>
    simp only [List.filter_nil, List.head?_nil]
    constructor
    · intro h; cases h
    · rintro ⟨l1, l2, h, -, -⟩; exact absurd h (by simp)
  | cons a t ih =>
    by_cases ha : f a = true
    · have hfc : List.filter f (a :: t) = a :: List.filter f t := by
        simp [List.filter_cons, ha]
      rw [hfc, List.head?_cons, Option.some_inj]
      constructor
      · rintro rfl
        exact ⟨[], t, rfl, ha, by simp⟩
      · rintro ⟨l1, l2, hsplit, hr, hl1⟩
        cases l1 with
        | nil => simpa using congrArg List.head? hsplit
        | cons x l1' =>
          have hx : x = a := by simpa using congrArg List.head? hsplit.symm
          have : f a = false := hx ▸ hl1 x (by simp)
          simp [this] at ha
    · have ha' : f a = false := by simpa using ha
      have hfc : List.filter f (a :: t) = List.filter f t := by
        simp [List.filter_cons, ha']
      rw [hfc, ih]
      constructor
      · rintro ⟨l1, l2, rfl, hr, hl1⟩
        exact ⟨a :: l1, l2, rfl, hr, by
          intro q hq
          rcases List.mem_cons.mp hq with rfl | hq
          · exact ha'
          · exact hl1 q hq⟩
      · rintro ⟨l1, l2, hsplit, hr, hl1⟩
        cases l1 with
        | nil =>
          have : a = r := by simpa using congrArg List.head? hsplit
          subst this
          simp [ha'] at hr
        | cons x l1' =>
          have hx : x = a := by simpa using congrArg List.head? hsplit.symm
          subst hx
          have ht : t = l1' ++ r :: l2 := by simpa using hsplit
          exact ⟨l1', l2, ht, hr, fun q hq => hl1 q (by simp [hq])⟩

/-- `_.first(_.filter(l, f))` is `undefined` exactly when `f` holds nowhere. -/
theorem head?_filter_eq_none {α : Type} (f : α → Bool) (l : List α) :
    (l.filter f).head? = none ↔ ∀ q ∈ l, f q = false := by
  rw [List.head?_eq_none_iff, List.filter_eq_nil_iff]
  simp

/-- C1: for a starting path whose candidate chain (the start path, its
parents, up to and including the first path satisfying `isRoot()`) is `L`,
`Project.find`:  (a) whenever it returns a project root `r`, the marker
directory `r/Raft` exists and `r` is the *nearest* candidate with that
property — every candidate strictly closer to the start lacks the marker;
(b) if some candidate in the chain has the marker, a project root is
returned (so for nested projects the innermost marker wins, the chain being
ordered from the start path outward); (c) if no candidate has the marker,
discovery fails (`none`, the source's `null`/rejection, which the
specification calls `ProjectNotFound`). -/
theorem find_nearest_marker (ex : Chars → Bool) (fuel : Nat) (p : Chars)
    (L : List Chars) (h : parentChainFuel fuel p = some L) :
    (∀ r, findRaftRoot ex fuel p = some (some r) →
        ex (Path.append ⟨r⟩ [raftChars]).path = true
        ∧ ∃ l1 l2, L = l1 ++ r :: l2
            ∧ ∀ q ∈ l1, ex (Path.append ⟨q⟩ [raftChars]).path = false)
    ∧ ((∃ q ∈ L, ex (Path.append ⟨q⟩ [raftChars]).path = true) →
        ∃ r, findRaftRoot ex fuel p = some (some r))
    ∧ ((∀ q ∈ L, ex (Path.append ⟨q⟩ [raftChars]).path = false) →
        findRaftRoot ex fuel p = some none) := by
  have hfind : findRaftRoot ex fuel p
      = some ((L.filter (fun q => ex (Path.append ⟨q⟩ [raftChars]).path)).head?) := by
    rw [findRaftRoot, h, Option.map_some']
  refine ⟨?_, ?_, ?_⟩
  · intro r hr
    rw [hfind, Option.some_inj] at hr
    obtain ⟨l1, l2, hsplit, hex, hl1⟩ := (head?_filter_eq_some _ _ _).mp hr
    exact ⟨hex, l1, l2, hsplit, hl1⟩
  · rintro ⟨q, hq, hex⟩
    rw [hfind]
    rcases hhead : (L.filter (fun q => ex (Path.append ⟨q⟩ [raftChars]).path)).head? with _ | r
    · exact absurd (((head?_filter_eq_none _ _).mp hhead) q hq) (by simp [hex])
    · exact ⟨r, rfl⟩
  · intro hall
    rw [hfind, (head?_filter_eq_none _ _).mpr hall]

/-- Closed instance of `find_nearest_marker`: starting at `/home/user/proj`
with the marker existing at `/home/user/proj/Raft` and `/home/Raft`, the
nearest root `/home/user/proj` wins. -/
theorem find_nearest_marker_witness :
    (∃ r, findRaftRoot
        (fun q => decide (q = "/home/user/proj/Raft".toList ∨ q = "/home/Raft".toList))
        10 "/home/user/proj".toList = some (some r)) := by
  refine (find_nearest_marker _ 10 _
    ["/home/user/proj".toList, "/home/user".toList, "/home".toList] (by decide)).2.1
    ⟨"/home/user/proj".toList, by decide, by decide⟩

/-! ## Lemmas about the `path.posix` segment model (used for C8 and C4) -/

theorem splitSlash_ne_nil (s : Chars) : splitSlash s ≠ [] := by
  induction s with
  | nil => simp [splitSlash]
  | cons c rest ih =>
    by_cases hc : c = '/'
    · simp [splitSlash, hc]
    · rcases h : splitSlash rest with _ | ⟨a, t⟩
      · exact absurd h ih
      · simp [splitSlash, hc, h, consHead]

theorem consHead_append (c : Char) (A B : List Chars) (hA : A ≠ []) :
    consHead c (A ++ B) = consHead c A ++ B := by
  cases A with
  | nil => exact absurd rfl hA
  | cons a t => simp [consHead]

theorem splitSlash_append (s t : Chars) :
    splitSlash (s ++ '/' :: t) = splitSlash s ++ splitSlash t := by
  induction s with
  | nil => simp [splitSlash]
  | cons c rest ih =>
    by_cases hc : c = '/'
    · simp [splitSlash, hc, ih]
    · simp only [List.cons_append, splitSlash, if_neg hc, List.append_eq]
      rw [ih, consHead_append c _ _ (splitSlash_ne_nil rest)]

theorem splitSlash_no_slash (s : Chars) (h : '/' ∉ s) : splitSlash s = [s] := by
  induction s with
  | nil => rfl
  | cons c rest ih =>
    have hc : ¬c = '/' := fun hh => h (by simp [hh])
    have hr : '/' ∉ rest := fun hh => h (by simp [hh])
    simp [splitSlash, hc, ih hr, consHead]

theorem mem_splitSlash_no_slash (s : Chars) : ∀ e ∈ splitSlash s, '/' ∉ e := by
  induction s with
  | nil =>
    intro e he
    simp only [splitSlash, List.mem_singleton] at he
    simp [he]
  | cons c rest ih =>
    intro e he
    by_cases hc : c = '/'
    · simp only [splitSlash, if_pos hc, List.mem_cons] at he
      rcases he with rfl | he
      · simp
      · exact ih e he
    · rcases h : splitSlash rest with _ | ⟨a, t⟩
      · exact absurd h (splitSlash_ne_nil rest)
      · simp only [splitSlash, if_neg hc, h, consHead, List.mem_cons] at he
        rcases he with rfl | he2
        · intro hmem
          rcases List.mem_cons.mp hmem with h1 | h1
          · exact hc h1.symm
          · exact ih a (by simp [h]) h1
        · exact ih e (by simp [h, he2])

theorem joinSep_cons_cons (x y : Chars) (t : List Chars) :
    joinSep (x :: y :: t) = x ++ '/' :: joinSep (y :: t) := rfl

theorem joinSep_concat (L : List Chars) (c : Chars) (hL : L ≠ []) :
    joinSep (L ++ [c]) = joinSep L ++ '/' :: c := by
  induction L with
  | nil => exact absurd rfl hL
  | cons x t ih =>
    cases t with
    | nil => simp [joinSep]
    | cons y u =>
      have ih' := ih (by simp)
      rw [List.cons_append] at ih'
      simp only [List.cons_append, joinSep_cons_cons]
      rw [ih']
      simp [List.append_assoc]

theorem splitSlash_joinSep (L : List Chars) (hL : L ≠ []) (h : ∀ e ∈ L, '/' ∉ e) :
    splitSlash (joinSep L) = L := by
  induction L with
  | nil => exact absurd rfl hL
  | cons x t ih =>
    cases t with
    | nil => exact splitSlash_no_slash x (h x (by simp))
    | cons y u =>
      rw [joinSep_cons_cons, splitSlash_append, splitSlash_no_slash x (h x (by simp)),
        ih (by simp) (fun e he => h e (by simp [he]))]
      rfl

theorem joinSep_ne_nil (L : List Chars) (hL : L ≠ []) (h : ∀ e ∈ L, e ≠ []) :
    joinSep L ≠ [] := by
  cases L with
  | nil => exact absurd rfl hL
  | cons x t =>
    cases t with
    | nil => exact h x (by simp)
    | cons y u => simp [joinSep_cons_cons]

theorem head?_joinSep (x : Chars) (t : List Chars) (hx : x ≠ []) :
    (joinSep (x :: t)).head? = x.head? := by
  cases t with
  | nil => rfl
  | cons y u =>
    rw [joinSep_cons_cons, List.head?_append]
    cases x with
    | nil => exact absurd rfl hx
    | cons c r => rfl

theorem absOf_joinSep_false (x : Chars) (t : List Chars) (hx : x ≠ [])
    (hns : '/' ∉ x) : absOf (joinSep (x :: t)) = false := by
  cases x with
  | nil => exact absurd rfl hx
  | cons c r =>
    have hc : ¬c = '/' := fun hh => hns (by simp [hh])
    simp [absOf, head?_joinSep (c :: r) t (by simp), hc]

theorem trailOf_joinSep_false (L : List Chars) (hL : L ≠ [])
    (hne : ∀ e ∈ L, e ≠ []) (hns : ∀ e ∈ L, '/' ∉ e) :
    trailOf (joinSep L) = false := by
  induction L with
  | nil => exact absurd rfl hL
  | cons x t ih =>
    cases t with
    | nil =>
      cases hlast : x.getLast? with
      | none => simp [joinSep, trailOf, hlast]
      | some c =>
        have hmem : c ∈ x := List.mem_of_getLast?_eq_some hlast
        have hc : ¬c = '/' := fun hh => hns x (by simp) (hh ▸ hmem)
        simp [joinSep, trailOf, hlast, hc]
    | cons y u =>
      have hJ : joinSep (y :: u) ≠ [] :=
        joinSep_ne_nil _ (by simp) (fun e he => hne e (by simp [he]))
      obtain ⟨v, hv⟩ : ∃ v, (joinSep (y :: u)).getLast? = some v := by
        cases hJl : (joinSep (y :: u)).getLast? with
        | none => exact absurd (List.getLast?_eq_none_iff.mp hJl) hJ
        | some v => exact ⟨v, rfl⟩
      have ihf := ih (by simp) (fun e he => hne e (by simp [he]))
        (fun e he => hns e (by simp [he]))
      rw [trailOf, hv] at ihf
      have hx2 : x ++ '/' :: joinSep (y :: u) = (x ++ ['/']) ++ joinSep (y :: u) := by simp
      rw [joinSep_cons_cons, trailOf, hx2, List.getLast?_append, hv]
      simpa using ihf

theorem goodStack_nil (allow : Bool) : GoodStack allow [] :=
  ⟨[], [], rfl, by simp, by simp, fun _ => rfl⟩

theorem goodSeg_dotdot : goodSeg dotdotSeg :=
  ⟨by decide, by decide, by decide⟩

theorem goodStack_mem (allow : Bool) (st : List Chars) (h : GoodStack allow st) :
    ∀ e ∈ st, goodSeg e := by
  obtain ⟨front, back, rfl, hf, hb, -⟩ := h
  intro e he
  rcases List.mem_append.mp he with h1 | h1
  · exact (hf e h1).1
  · exact (hb e h1) ▸ goodSeg_dotdot

theorem pushSeg_skip (allow : Bool) (st : List Chars) (seg : Chars)
    (h : seg = [] ∨ seg = dotSeg) : pushSeg allow st seg = st := by
  rw [pushSeg.eq_def, if_pos h]

theorem pushSeg_plain (allow : Bool) (st : List Chars) (seg : Chars)
    (h1 : goodSeg seg) (h2 : seg ≠ dotdotSeg) : pushSeg allow st seg = seg :: st := by
  rw [pushSeg.eq_def, if_neg (by simp [h1.1, h1.2.1]), if_neg h2]

theorem pushSeg_dotdot_nil (allow : Bool) :
    pushSeg allow [] dotdotSeg = if allow then [dotdotSeg] else [] := by
  cases allow <;> decide

theorem pushSeg_dotdot_cons (allow : Bool) (top : Chars) (rest : List Chars)
    (htop : top ≠ dotdotSeg) : pushSeg allow (top :: rest) dotdotSeg = rest := by
  rw [pushSeg.eq_def, if_neg (by decide), if_pos rfl]
  simp [htop]

theorem pushSeg_dotdot_top (allow : Bool) (rest : List Chars) :
    pushSeg allow (dotdotSeg :: rest) dotdotSeg
      = if allow then dotdotSeg :: dotdotSeg :: rest else dotdotSeg :: rest := by
  rw [pushSeg.eq_def, if_neg (by decide), if_pos rfl]
  simp

theorem goodStack_push (allow : Bool) (st : List Chars) (seg : Chars)
    (h : GoodStack allow st) (hs : '/' ∉ seg) :
    GoodStack allow (pushSeg allow st seg) := by
  by_cases h1 : seg = [] ∨ seg = dotSeg
  · rw [pushSeg_skip allow st seg h1]; exact h
  · by_cases h2 : seg = dotdotSeg
    · subst h2
      obtain ⟨front, back, rfl, hf, hb, hab⟩ := h
      cases front with
      | nil =>
        cases back with
        | nil =>
          rw [List.nil_append, pushSeg_dotdot_nil]
          cases allow with
          | false => exact goodStack_nil false
          | true =>
            exact ⟨[], [dotdotSeg], rfl, by simp, by simp,
              fun hcontra => absurd hcontra (by simp)⟩
        | cons b bs =>
          have hb' : b = dotdotSeg := hb b (by simp)
          subst hb'
          cases hallow : allow with
          | false => exact absurd (hab hallow) (by simp)
          | true =>
            rw [List.nil_append, pushSeg_dotdot_top, if_pos rfl]
            exact ⟨[], dotdotSeg :: dotdotSeg :: bs, rfl, by simp,
              by
                intro e he
                rcases List.mem_cons.mp he with rfl | he2
                · rfl
                · rcases List.mem_cons.mp he2 with rfl | he3
                  · rfl
                  · exact hb e (by simp [he3]),
              fun hcontra => absurd hcontra (by simp [hallow])⟩
      | cons f fs =>
        have hfne : f ≠ dotdotSeg := (hf f (by simp)).2
        rw [List.cons_append, pushSeg_dotdot_cons allow f (fs ++ back) hfne]
        exact ⟨fs, back, rfl, fun e he => hf e (by simp [he]), hb, hab⟩
    · have hgood : goodSeg seg :=
        ⟨fun he => h1 (Or.inl he), fun he => h1 (Or.inr he), hs⟩
      rw [pushSeg_plain allow st seg hgood h2]
      obtain ⟨front, back, rfl, hf, hb, hab⟩ := h
      refine ⟨seg :: front, back, rfl, ?_, hb, hab⟩
      intro e he
      rcases List.mem_cons.mp he with rfl | he2
      · exact ⟨hgood, h2⟩
      · exact hf e he2

theorem foldl_push_plain (allow : Bool) (L init : List Chars)
    (h : ∀ e ∈ L, goodSeg e ∧ e ≠ dotdotSeg) :
    List.foldl (pushSeg allow) init L.reverse = L ++ init := by
  induction L with
  | nil => rfl
  | cons x t ih =>
    rw [List.reverse_cons, List.foldl_append,
      ih (fun e he => h e (by simp [he]))]
    simp only [List.foldl_cons, List.foldl_nil]
    rw [pushSeg_plain allow (t ++ init) x (h x (by simp)).1 (h x (by simp)).2]
    rfl

theorem foldl_push_dotdots (k m : Nat) :
    List.foldl (pushSeg true) (List.replicate m dotdotSeg) (List.replicate k dotdotSeg)
      = List.replicate (k + m) dotdotSeg := by
  induction k generalizing m with
  | zero => simp
  | succ k ih =>
    rw [List.replicate_succ, List.foldl_cons]
    have hstep : pushSeg true (List.replicate m dotdotSeg) dotdotSeg
        = List.replicate (m + 1) dotdotSeg := by
      cases m with
      | zero => simpa using pushSeg_dotdot_nil true
      | succ m =>
        rw [List.replicate_succ]
        simpa [List.replicate_succ] using pushSeg_dotdot_top true (List.replicate m dotdotSeg)
    rw [hstep, ih (m + 1)]
    congr 1
    omega

theorem rebuild_stack (allow : Bool) (st : List Chars) (h : GoodStack allow st) :
    List.foldl (pushSeg allow) [] st.reverse = st := by
  obtain ⟨front, back, rfl, hf, hb, hab⟩ := h
  rw [List.reverse_append, List.foldl_append]
  have hback : List.foldl (pushSeg allow) [] back.reverse = back := by
    cases hallow : allow with
    | false => rw [hab hallow]; rfl
    | true =>
      have hrep : back = List.replicate back.length dotdotSeg := by
        rw [List.eq_replicate_iff]
        exact ⟨rfl, hb⟩
      conv in back.reverse => rw [hrep]
      rw [List.reverse_replicate]
      have := foldl_push_dotdots back.length 0
      simp only [List.replicate_zero, Nat.add_zero] at this
      rw [this, ← hrep]
  rw [hback]
  exact foldl_push_plain allow front back hf

theorem goodStack_foldl (allow : Bool) (segs : List Chars) (st : List Chars)
    (hst : GoodStack allow st) (hsegs : ∀ e ∈ segs, '/' ∉ e) :
    GoodStack allow (List.foldl (pushSeg allow) st segs) := by
  induction segs generalizing st with
  | nil => exact hst
  | cons x t ih =>
    rw [List.foldl_cons]
    exact ih (pushSeg allow st x)
      (goodStack_push allow st x hst (hsegs x (by simp)))
      (fun e he => hsegs e (by simp [he]))

theorem goodStack_normStack (allow : Bool) (s : Chars) :
    GoodStack allow (normStack allow (splitSlash s)) :=
  goodStack_foldl allow _ [] (goodStack_nil allow) (mem_splitSlash_no_slash s)

theorem normStack_cons_nil (allow : Bool) (L : List Chars) :
    normStack allow ([] :: L) = normStack allow L := by
  simp only [normStack, List.foldl_cons, pushSeg_skip allow [] [] (Or.inl rfl)]

theorem normStack_append_nil (allow : Bool) (L : List Chars) :
    normStack allow (L ++ [[]]) = normStack allow L := by
  simp only [normStack, List.foldl_append, List.foldl_cons, List.foldl_nil]
  exact pushSeg_skip allow _ [] (Or.inl rfl)

theorem absOf_append (a b : Chars) (ha : a ≠ []) : absOf (a ++ b) = absOf a := by
  cases a with
  | nil => exact absurd rfl ha
  | cons c r => simp [absOf]

theorem trailOf_cons (c : Char) (a : Chars) (ha : a ≠ []) :
    trailOf (c :: a) = trailOf a := by
  have h2 : (c :: a) = [c] ++ a := rfl
  rw [trailOf, trailOf, h2, List.getLast?_append]
  cases hlast : a.getLast? with
  | none => exact absurd (List.getLast?_eq_none_iff.mp hlast) ha
  | some v => rfl

theorem trailOf_append_slash (a : Chars) : trailOf (a ++ ['/']) = true := by
  rw [trailOf, List.getLast?_append]
  rfl

theorem renderNorm_ne_nil (abs tr : Bool) (st : List Chars) :
    renderNorm abs tr st ≠ [] := by
  simp only [renderNorm]
  cases abs with
  | true => simp
  | false =>
    by_cases h : joinSep st.reverse = []
    · by_cases h2 : tr = true <;> simp [h, h2, dotSeg]
    · by_cases h2 : tr = true <;> simp [h, h2]

theorem absOf_renderNorm (abs tr : Bool) (st : List Chars)
    (h : ∀ e ∈ st, goodSeg e) : absOf (renderNorm abs tr st) = abs := by
  rcases hrev : st.reverse with _ | ⟨x, rev⟩
  · simp only [renderNorm, hrev, joinSep]
    cases abs with
    | true => simp [absOf]
    | false => by_cases h2 : tr = true <;> simp [h2, absOf, dotSeg]
  · have hgood : ∀ e ∈ x :: rev, goodSeg e := by
      intro e he
      exact h e (List.mem_reverse.mp (by rw [hrev]; exact he))
    have hne : joinSep (x :: rev) ≠ [] :=
      joinSep_ne_nil _ (by simp) fun e he => (hgood e he).1
    have habs : absOf (joinSep (x :: rev)) = false :=
      absOf_joinSep_false x rev (hgood x (by simp)).1 (hgood x (by simp)).2.2
    simp only [renderNorm, hrev]
    cases abs with
    | true =>
      rw [if_pos rfl]
      simp [absOf]
    | false =>
      rw [if_neg (by decide : ¬(false = true)),
        if_neg (show ¬(joinSep (x :: rev) = [] ∧ false = false) from fun hh => hne hh.1)]
      by_cases h2 : tr = true
      · rw [if_pos ⟨hne, h2⟩, absOf_append _ _ hne]
        exact habs
      · rw [if_neg (show ¬(joinSep (x :: rev) ≠ [] ∧ tr = true) from fun hh => h2 hh.2)]
        exact habs

theorem trailOf_renderNorm (abs tr : Bool) (st : List Chars)
    (h : ∀ e ∈ st, goodSeg e) (hst : st ≠ []) :
    trailOf (renderNorm abs tr st) = tr := by
  rcases hrev : st.reverse with _ | ⟨x, rev⟩
  · exact absurd (by simpa using congrArg List.reverse hrev) hst
  · have hgood : ∀ e ∈ x :: rev, goodSeg e := by
      intro e he
      exact h e (List.mem_reverse.mp (by rw [hrev]; exact he))
    have hne : joinSep (x :: rev) ≠ [] :=
      joinSep_ne_nil _ (by simp) fun e he => (hgood e he).1
    have htrail : trailOf (joinSep (x :: rev)) = false :=
      trailOf_joinSep_false _ (by simp) (fun e he => (hgood e he).1)
        (fun e he => (hgood e he).2.2)
    simp only [renderNorm, hrev]
    cases abs with
    | true =>
      rw [if_pos rfl, if_neg (show ¬(joinSep (x :: rev) = [] ∧ true = false) from fun hh => hne hh.1)]
      by_cases h2 : tr = true
      · rw [if_pos ⟨hne, h2⟩, trailOf_cons _ _ (by simp), trailOf_append_slash]
        exact h2.symm
      · have h2' : tr = false := by simpa using h2
        rw [if_neg (show ¬(joinSep (x :: rev) ≠ [] ∧ tr = true) from fun hh => h2 hh.2),
          trailOf_cons _ _ hne, htrail]
        exact h2'.symm
    | false =>
      rw [if_neg (by decide : ¬(false = true)),
        if_neg (show ¬(joinSep (x :: rev) = [] ∧ false = false) from fun hh => hne hh.1)]
      by_cases h2 : tr = true
      · rw [if_pos ⟨hne, h2⟩, trailOf_append_slash]
        exact h2.symm
      · have h2' : tr = false := by simpa using h2
        rw [if_neg (show ¬(joinSep (x :: rev) ≠ [] ∧ tr = true) from fun hh => h2 hh.2), htrail]
        exact h2'.symm

theorem reparse_renderNorm (abs tr allow : Bool) (st : List Chars)
    (hst : GoodStack allow st) (hallow : allow = !abs) :
    normStack allow (splitSlash (renderNorm abs tr st)) = st := by
  rcases hrev : st.reverse with _ | ⟨x, rev⟩
  · have hstnil : st = [] := by simpa using congrArg List.reverse hrev
    subst hstnil
    subst hallow
    cases abs <;> cases tr <;> decide
  · have hgood : ∀ e ∈ x :: rev, goodSeg e := by
      intro e he
      exact goodStack_mem allow st hst e (List.mem_reverse.mp (by rw [hrev]; exact he))
    have hne : joinSep (x :: rev) ≠ [] :=
      joinSep_ne_nil _ (by simp) fun e he => (hgood e he).1
    have hsplit : splitSlash (joinSep (x :: rev)) = x :: rev :=
      splitSlash_joinSep _ (by simp) fun e he => (hgood e he).2.2
    have hrebuild : normStack allow (x :: rev) = st := by
      rw [← hrev]
      exact rebuild_stack allow st hst
    have hslash : ∀ y : Chars, splitSlash ('/' :: y) = [] :: splitSlash y := by
      intro y
      simp [splitSlash]
    have happend : ∀ y : Chars, splitSlash (y ++ ['/']) = splitSlash y ++ [[]] := by
      intro y
      have : y ++ ['/'] = y ++ '/' :: [] := rfl
      rw [this, splitSlash_append]
      rfl
    simp only [renderNorm, hrev]
    cases abs with
    | true =>
      rw [if_pos rfl, if_neg (show ¬(joinSep (x :: rev) = [] ∧ true = false) from fun hh => hne hh.1)]
      by_cases h2 : tr = true
      · rw [if_pos ⟨hne, h2⟩, hslash, happend, hsplit, normStack_cons_nil,
          normStack_append_nil, hrebuild]
      · rw [if_neg (show ¬(joinSep (x :: rev) ≠ [] ∧ tr = true) from fun hh => h2 hh.2),
          hslash, hsplit, normStack_cons_nil, hrebuild]
    | false =>
      rw [if_neg (by decide : ¬(false = true)),
        if_neg (show ¬(joinSep (x :: rev) = [] ∧ false = false) from fun hh => hne hh.1)]
      by_cases h2 : tr = true
      · rw [if_pos ⟨hne, h2⟩, happend, hsplit, normStack_append_nil, hrebuild]
      · rw [if_neg (show ¬(joinSep (x :: rev) ≠ [] ∧ tr = true) from fun hh => h2 hh.2),
          hsplit, hrebuild]

theorem normalize_eq_renderNorm (s : Chars) (hs : s ≠ []) :
    normalize s = renderNorm (absOf s) (trailOf s) (normStack (!absOf s) (splitSlash s)) := by
  rw [normalize, if_neg hs]

theorem normalize_ne_nil (s : Chars) : normalize s ≠ [] := by
  by_cases hs : s = []
  · simp [normalize, hs, dotSeg]
  · rw [normalize_eq_renderNorm s hs]
    exact renderNorm_ne_nil _ _ _

theorem absOf_normalize (s : Chars) (hs : s ≠ []) : absOf (normalize s) = absOf s := by
  rw [normalize_eq_renderNorm s hs]
  exact absOf_renderNorm _ _ _ (goodStack_mem _ _ (goodStack_normStack (!absOf s) s))

theorem reparse_normalize (s : Chars) (hs : s ≠ []) :
    normStack (!absOf s) (splitSlash (normalize s))
      = normStack (!absOf s) (splitSlash s) := by
  rw [normalize_eq_renderNorm s hs]
  exact reparse_renderNorm _ _ _ _ (goodStack_normStack (!absOf s) s) rfl

theorem normalize_idem (s : Chars) (hs : s ≠ []) :
    normalize (normalize s) = normalize s := by
  have hr : normalize s ≠ [] := normalize_ne_nil s
  rw [normalize_eq_renderNorm (normalize s) hr, absOf_normalize s hs, reparse_normalize s hs]
  rcases hcase : normStack (!absOf s) (splitSlash s) with _ | ⟨x, rest⟩
  · -- empty stack: check the four flag combinations on concrete renders
    rw [normalize_eq_renderNorm s hs, hcase]
    cases habs : absOf s <;> cases htr : trailOf s <;> decide
  · rw [normalize_eq_renderNorm s hs, hcase]
    rw [trailOf_renderNorm _ _ _
      (by rw [← hcase]; exact goodStack_mem _ _ (goodStack_normStack (!absOf s) s))
      (by simp)]

theorem normStack_cons_dot (allow : Bool) (L : List Chars) :
    normStack allow (dotSeg :: L) = normStack allow L := by
  simp only [normStack, List.foldl_cons, pushSeg_skip allow [] dotSeg (Or.inr rfl)]

theorem trailOf_append (x y : Chars) (hy : y ≠ []) : trailOf (x ++ y) = trailOf y := by
  rw [trailOf, trailOf, List.getLast?_append]
  cases hl : y.getLast? with
  | none => exact absurd (List.getLast?_eq_none_iff.mp hl) hy
  | some v => rfl

theorem normStack_append (allow : Bool) (L1 L2 : List Chars) :
    normStack allow (L1 ++ L2) = List.foldl (pushSeg allow) (normStack allow L1) L2 := by
  simp [normStack, List.foldl_append]

theorem joinParts_cons_pair (r c : Chars) (hr : r ≠ []) :
    joinParts [r, c] = if c = [] then normalize r else normalize (r ++ '/' :: c) := by
  by_cases hc : c = []
  · simp [joinParts, hc, hr, joinSep]
  · simp [joinParts, hc, hr, joinSep_cons_cons, joinSep]

/-- Re-normalizing an already normalized prefix before joining one more piece
changes nothing: `normalize (normalize s ++ "/" ++ c) = normalize (s ++ "/" ++ c)`. -/
theorem normalize_append_normalize (s c : Chars) (hs : s ≠ []) :
    normalize (normalize s ++ '/' :: c) = normalize (s ++ '/' :: c) := by
  have hr := normalize_ne_nil s
  have habs : absOf (normalize s ++ '/' :: c) = absOf (s ++ '/' :: c) := by
    rw [absOf_append _ _ hr, absOf_append _ _ hs, absOf_normalize s hs]
  have htr : trailOf (normalize s ++ '/' :: c) = trailOf (s ++ '/' :: c) := by
    rw [trailOf_append _ _ (by simp), trailOf_append _ _ (by simp)]
  have hstack : normStack (!absOf (s ++ '/' :: c)) (splitSlash (normalize s ++ '/' :: c))
      = normStack (!absOf (s ++ '/' :: c)) (splitSlash (s ++ '/' :: c)) := by
    rw [splitSlash_append, splitSlash_append, normStack_append, normStack_append,
      absOf_append _ _ hs, reparse_normalize s hs]
  rw [normalize_eq_renderNorm _ (by simp), normalize_eq_renderNorm (s ++ '/' :: c) (by simp),
    habs, htr, hstack]

/-! ## C9 — termination of the upward search -/

theorem isRoot_of_not_abs (p : Chars) (h : absOf p = false) : isRoot p = false := by
  cases p with
  | nil => rfl
  | cons c t =>
    have hc : ¬c = '/' := by simpa [absOf] using h
    simp [isRoot, hc]

theorem tailScan_length_le (t : Chars) : (tailScan t).length ≤ t.length :=
  calc (tailScan t).length
      ≤ (t.reverse.dropWhile (fun c => decide (c = '/'))).length :=
        (List.dropWhile_sublist _).length_le
    _ ≤ t.reverse.length := (List.dropWhile_sublist _).length_le
    _ = t.length := List.length_reverse t

theorem absOf_dirname_of_not_abs (p : Chars) (h : absOf p = false) :
    absOf (dirname p) = false := by
  cases p with
  | nil => rfl
  | cons c t =>
    have hc : ¬c = '/' := by simpa [absOf] using h
    rcases hscan : tailScan t with _ | ⟨x, rest⟩ <;>
      simp [dirname, hscan, hc, absOf, dotSeg]

theorem dirname_of_not_abs (p : Chars) (h : absOf p = false) :
    dirname p = dotSeg ∨ (dirname p).length < p.length := by
  cases p with
  | nil => exact Or.inl rfl
  | cons c t =>
    have hc : ¬c = '/' := by simpa [absOf] using h
    rcases hscan : tailScan t with _ | ⟨x, rest⟩
    · exact Or.inl (by simp [dirname, hscan, hc])
    · refine Or.inr ?_
      have hlen := tailScan_length_le t
      rw [hscan] at hlen
      simp only [List.length_cons] at hlen
      simp [dirname, hscan, hc]
      omega

theorem reaches_dot : ∀ (k : Nat) (p : Chars), p.length ≤ k → absOf p = false →
    ∃ n, dirname^[n] p = dotSeg := by
  intro k
  induction k with
  | zero =>
    intro p hp _
    have : p = [] := List.eq_nil_of_length_eq_zero (Nat.le_antisymm hp (Nat.zero_le _))
    subst this
    exact ⟨1, rfl⟩
  | succ k ih =>
    intro p hp habs
    rcases dirname_of_not_abs p habs with h | hlt
    · exact ⟨1, by simpa using h⟩
    · obtain ⟨n, hn⟩ := ih (dirname p) (by omega) (absOf_dirname_of_not_abs p habs)
      exact ⟨n + 1, by rw [Function.iterate_succ_apply]; exact hn⟩

theorem iterate_dirname_not_abs (p : Chars) (h : absOf p = false) :
    ∀ n, absOf (dirname^[n] p) = false := by
  intro n
  induction n with
  | zero => exact h
  | succ n ih =>
    rw [Function.iterate_succ_apply']
    exact absOf_dirname_of_not_abs _ ih

theorem chainFuel_none_of_not_abs : ∀ (fuel : Nat) (p : Chars), absOf p = false →
    parentChainFuel fuel p = none := by
  intro fuel
  induction fuel with
  | zero => intro p h; simp [parentChainFuel, isRoot_of_not_abs p h]
  | succ f ih =>
    intro p h
    simp [parentChainFuel, isRoot_of_not_abs p h,
      ih (dirname p) (absOf_dirname_of_not_abs p h)]

theorem dirname_abs_not_root (p : Chars) (habs : absOf p = true)
    (hroot : isRoot p = false) :
    absOf (dirname p) = true ∧ (dirname p).length < p.length := by
  cases p with
  | nil => simp [absOf] at habs
  | cons c t =>
    have hc : c = '/' := by simpa [absOf] using habs
    subst hc
    rcases hscan : tailScan t with _ | ⟨x, rest⟩
    · simp [isRoot, hscan] at hroot
    · have hrest : ¬rest = [] := by simpa [isRoot, hscan] using hroot
      have hlen := tailScan_length_le t
      rw [hscan] at hlen
      simp only [List.length_cons] at hlen
      constructor
      · simp [dirname, hscan, hrest, absOf]
      · simp [dirname, hscan, hrest]
        omega

theorem chainFuel_some_of_abs : ∀ (k : Nat) (p : Chars), p.length ≤ k →
    absOf p = true → ∃ fuel L, parentChainFuel fuel p = some L := by
  intro k
  induction k with
  | zero =>
    intro p hp habs
    have : p = [] := List.eq_nil_of_length_eq_zero (Nat.le_antisymm hp (Nat.zero_le _))
    subst this
    simp [absOf] at habs
  | succ k ih =>
    intro p hp habs
    by_cases hroot : isRoot p = true
    · exact ⟨0, [p], by simp [parentChainFuel, hroot]⟩
    · have hroot' : isRoot p = false := by simpa using hroot
      obtain ⟨habs', hlt⟩ := dirname_abs_not_root p habs hroot'
      obtain ⟨f, L, hL⟩ := ih (dirname p) (by omega) habs'
      exact ⟨f + 1, p :: L, by simp [parentChainFuel, hroot', hL]⟩

/-- C9: for every starting path whose underlying string is relative (Node's
`parse` yields an empty `root` exactly when the string does not begin with
`'/'`), `isRoot()` is false for the path and for every iterate of `parent()`,
the iterates reach the fixpoint `"."` (and `dirname "." = "."`), so the
candidate-chain loop in `Project.find` never terminates — the fuelled chain is
`none` for every fuel; and for every absolute starting path the loop does
terminate — some fuel yields the chain. -/
theorem find_loop_termination :
    (∀ p : Chars, absOf p = false →
        (∀ n, isRoot (dirname^[n] p) = false)
        ∧ (∃ n, dirname^[n] p = dotSeg)
        ∧ dirname dotSeg = dotSeg
        ∧ (∀ fuel, parentChainFuel fuel p = none))
    ∧ (∀ p : Chars, absOf p = true → ∃ fuel L, parentChainFuel fuel p = some L) := by
  constructor
  · intro p h
    exact ⟨fun n => isRoot_of_not_abs _ (iterate_dirname_not_abs p h n),
      reaches_dot p.length p le_rfl h, rfl,
      fun fuel => chainFuel_none_of_not_abs fuel p h⟩
  · intro p h
    exact chainFuel_some_of_abs p.length p le_rfl h

/-- Closed instance of `find_loop_termination`. -/
theorem find_loop_termination_witness :
    isRoot (dirname^[2] "a/b/c".toList) = false
    ∧ parentChainFuel 5 "a/b/c".toList = none
    ∧ (∃ fuel L, parentChainFuel fuel "/a/b".toList = some L) :=
  ⟨(find_loop_termination.1 "a/b/c".toList (by decide)).1 2,
   (find_loop_termination.1 "a/b/c".toList (by decide)).2.2.2 5,
   find_loop_termination.2 "/a/b".toList (by decide)⟩

/-! ## C5 — dependency-resolution error handling -/

/-- Counterexample to C5.  The claim says `createRepository` fails with
`UnsupportedRepository` whenever `repository.type` is unrecognized; but the
source only tests `if (repoDescriptor.type)` — truthiness — so the
unrecognized type `"svn"` is silently treated as a Git repository instead of
being rejected. -/
theorem createRepository_accepts_svn :
    createRepository ⟨"svn".toList, "u".toList⟩ = .ok (.git "u".toList) := by
  rfl

/-- C5 (amended): `createDependency` fails with `UnsupportedBuildSystem`
whenever `buildSystem` is not `"cmake"` and the repository descriptor's `type`
is non-empty (with an empty/missing `type`, the `UnsupportedRepository` error
from `createRepository` wins); `createRepository` fails exactly when
`repository.type` is missing/empty, and otherwise returns a Git repository
regardless of the value of `type` — an unknown non-empty `type` is silently
treated as the Git variant. -/
theorem createDependency_createRepository_dispatch (d : DependencyDescriptor) :
    (createRepository d.repository = .error .unsupportedRepository ↔ d.repository.type = [])
    ∧ (d.repository.type ≠ [] → createRepository d.repository = .ok (.git d.repository.location))
    ∧ (d.repository.type = [] → createDependency d = .error .unsupportedRepository)
    ∧ (d.repository.type ≠ [] → d.buildSystem ≠ "cmake".toList →
        createDependency d = .error .unsupportedBuildSystem)
    ∧ (createDependency d = .ok (.cmakeDependency d.name (.git d.repository.location)) ↔
        d.repository.type ≠ [] ∧ d.buildSystem = "cmake".toList) := by
  by_cases ht : d.repository.type = [] <;> by_cases hb : d.buildSystem = "cmake".toList <;>
    simp [createDependency, createRepository, ht, hb, Bind.bind, Except.bind]

/-- Closed instance of `createDependency_createRepository_dispatch`. -/
theorem createDependency_createRepository_dispatch_witness :
    createDependency ⟨"n".toList, ⟨"git".toList, "u".toList⟩, "cmake".toList⟩
      = .ok (.cmakeDependency "n".toList (.git "u".toList)) :=
  ((createDependency_createRepository_dispatch
      ⟨"n".toList, ⟨"git".toList, "u".toList⟩, "cmake".toList⟩).2.2.2.2).mpr (by decide)

/-! ## C6 — `createDirectory` on an existing directory -/

/-- C6 (code bug): evaluating `createDirectory` twice on the same path from an
empty file system.  The first call returns `true` and creates the directory;
the *second* call also returns `true`, because `mkdirp` calls back without
error when the directory already exists, and the source maps every
non-erroring callback to `true` (the `//TODO: Validate error was caused by
directory existing` comment shows the author expected existence to surface as
an error, which `mkdirp` never does).  The claim's `true then false` is what
the surrounding code intends (the caller logs `Created …` only when the
resolved boolean is true) but not what the code does.  The directory does
exist after either call, as the claim states. -/
theorem createDirectory_twice_both_true :
    (createDirectory ⟨[], []⟩ "/a/b".toList).1 = true
    ∧ (createDirectory (createDirectory ⟨[], []⟩ "/a/b".toList).2 "/a/b".toList).1 = true
    ∧ FS.dirExists (createDirectory ⟨[], []⟩ "/a/b".toList).2 "/a/b".toList = true
    ∧ FS.dirExists
        (createDirectory (createDirectory ⟨[], []⟩ "/a/b".toList).2 "/a/b".toList).2
        "/a/b".toList = true := by
  decide

/-! ## C7 — `System.execute` log tagging -/

/-- Counterexample to C7.  The claim says every invocation logs a line tagged
with `options.tag` (defaulting to the command) at start; but when `cwd` is
given the source's start line is `raftlog(command, …)` — tagged with the
command string even though a different `tag` was supplied. -/
theorem executeLogs_cwd_start_not_tagged :
    executeLogs "c".toList ⟨some ⟨"/d".toList⟩, some "t".toList⟩ false true
      = [("c".toList, "Running in /d".toList),
         ("t".toList, "Finished successfullly".toList)]
    ∧ "c".toList ≠ "t".toList := by
  decide

/-- C7 (amended): every invocation of `System.execute` logs a line at start
and, on success, a line at completion tagged with `options.tag || command` —
JavaScript falsy semantics, so a missing *or empty* tag falls back to the
command string; the start line carries that tag only when no `cwd` option is
given — when `cwd` is given, the start line is tagged with the command
string regardless of `options.tag`. -/
theorem executeLogs_tags (command : Chars) (options : ExecuteOptions)
    (created processOk : Bool) :
    (processOk = true →
      (executeLogs command options created processOk).getLast?
        = some (orFalsy options.tag command, "Finished successfullly".toList))
    ∧ (options.cwd = none →
      (executeLogs command options created processOk).head?
        = some (orFalsy options.tag command,
            "Running in the current working directory".toList))
    ∧ (∀ d, options.cwd = some d →
      (executeLogs command options created processOk).head?
        = some (command, "Running in ".toList ++ d.path)) := by
  obtain ⟨cwd, tag⟩ := options
  refine ⟨?_, ?_, ?_⟩ <;> cases cwd <;> cases created <;> cases processOk <;>
    simp [executeLogs]

/-- Closed instance of `executeLogs_tags`. -/
theorem executeLogs_tags_witness :
    (executeLogs "c".toList ⟨none, some "t".toList⟩ false true).head?
      = some (orFalsy (some "t".toList) "c".toList,
          "Running in the current working directory".toList) :=
  (executeLogs_tags "c".toList ⟨none, some "t".toList⟩ false true).2.1 rfl

/-! ## C10 — `dependencies()` returns a fresh copy -/

/-- C10: `Project.dependencies()` returns a fresh array on every call: the
returned reference differs from the stored manifest's reference, its contents
equal the manifest's dependency list, overwriting the returned array (any
mutation) leaves the stored manifest list unchanged, and a second call returns
a list element-wise equal to the manifest's (hence to the first call's). -/
theorem dependencies_fresh_copy (st : Store) (p : ProjectH)
    (hv : p.raftfileDeps < st.arrays.length) :
    (dependenciesCall p st).1 ≠ p.raftfileDeps
    ∧ Store.get (dependenciesCall p st).2 (dependenciesCall p st).1
        = Store.get st p.raftfileDeps
    ∧ (∀ v, Store.get (Store.set (dependenciesCall p st).2 (dependenciesCall p st).1 v)
          p.raftfileDeps = Store.get st p.raftfileDeps)
    ∧ Store.get (dependenciesCall p (dependenciesCall p st).2).2
        (dependenciesCall p (dependenciesCall p st).2).1
        = Store.get st p.raftfileDeps := by
  obtain ⟨arrays⟩ := st
  simp only [dependenciesCall, Store.alloc, Store.get, Store.set] at *
  refine ⟨by omega, ?_, ?_, ?_⟩
  · simp [List.getD, List.getElem?_concat_length, List.getElem?_append_left hv]
  · intro v
    simp [List.getD, List.getElem?_set_ne (by omega : arrays.length ≠ p.raftfileDeps),
      List.getElem?_append_left hv]
  · have h1 : (arrays ++ [arrays.getD p.raftfileDeps []]).getD p.raftfileDeps []
        = arrays.getD p.raftfileDeps [] := by
      simp [List.getD, List.getElem?_append_left hv]
    simp only [List.getD, List.get?_eq_getElem?] at h1 ⊢
    rw [h1, List.getElem?_concat_length]
    rfl

/-- Closed instance of `dependencies_fresh_copy`. -/
theorem dependencies_fresh_copy_witness :
    (dependenciesCall ⟨0⟩ ⟨[[⟨"n".toList, ⟨"git".toList, "u".toList⟩, "cmake".toList⟩]]⟩).1 ≠ 0
    ∧ Store.get (dependenciesCall ⟨0⟩
        ⟨[[⟨"n".toList, ⟨"git".toList, "u".toList⟩, "cmake".toList⟩]]⟩).2
        (dependenciesCall ⟨0⟩
          ⟨[[⟨"n".toList, ⟨"git".toList, "u".toList⟩, "cmake".toList⟩]]⟩).1
      = Store.get ⟨[[⟨"n".toList, ⟨"git".toList, "u".toList⟩, "cmake".toList⟩]]⟩ 0 :=
  ⟨(dependencies_fresh_copy ⟨[[⟨"n".toList, ⟨"git".toList, "u".toList⟩, "cmake".toList⟩]]⟩
      ⟨0⟩ (by decide)).1,
   (dependencies_fresh_copy ⟨[[⟨"n".toList, ⟨"git".toList, "u".toList⟩, "cmake".toList⟩]]⟩
      ⟨0⟩ (by decide)).2.1⟩

/-! ## C8 — associativity of `Path.append` -/

/-- Counterexample to C8.  With `p`, `a`, `b` all the empty string and `c`
absolute, `p.append(a, b)` is `"."` (Node's `join` with no non-empty argument),
and joining `c` onto `"."` yields a *relative* normalized path, while the
direct `p.append(a, b, c)` keeps `c`'s leading separator:
`join(join("", "", ""), "/x") = "x"` but `join("", "", "", "/x") = "/x"`. -/
theorem path_append_assoc_cex :
    ((Path.mk []).append [[], []]).append ["/x".toList]
      ≠ (Path.mk []).append [[], [], "/x".toList] := by
  decide

/-- C8 (amended): `Path.append` is pure by construction — a function of the
argument strings alone — and the associativity
`p.append(a, b).append(c) = p.append(a, b, c)` holds whenever some of `p`,
`a`, `b` is non-empty or `c` does not begin with the separator (the single
excluded family: all of `p`, `a`, `b` empty and `c` absolute, where the inner
join collapses to `"."` and forgets that the direct join would start at
`c`'s root). -/
theorem path_append_assoc (p : Path) (a b c : Chars)
    (h : p.path ≠ [] ∨ a ≠ [] ∨ b ≠ [] ∨ absOf c = false) :
    (p.append [a, b]).append [c] = p.append [a, b, c] := by
  obtain ⟨q⟩ := p
  simp only [Path.append, Path.mk.injEq]
  by_cases hne : [q, a, b].filter (fun p => decide (p ≠ [])) = []
  · -- q, a, b all empty
    have hq : q = [] := by
      have := (List.filter_eq_nil_iff.mp hne) q (by simp)
      simpa using this
    have ha : a = [] := by
      have := (List.filter_eq_nil_iff.mp hne) a (by simp)
      simpa using this
    have hb : b = [] := by
      have := (List.filter_eq_nil_iff.mp hne) b (by simp)
      simpa using this
    subst hq; subst ha; subst hb
    have hc : absOf c = false := by
      rcases h with h | h | h | h
      · exact absurd rfl h
      · exact absurd rfl h
      · exact absurd rfl h
      · exact h
    have h1 : joinParts [([] : Chars), [], []] = dotSeg := by decide
    rw [h1]
    by_cases hcnil : c = []
    · subst hcnil
      decide
    · have h2 : joinParts [([] : Chars), [], [], c] = normalize c := by
        have hfc : [([] : Chars), [], [], c].filter (fun p => decide (p ≠ [])) = [c] := by
          simp [hcnil]
        simp only [joinParts, hfc]
        rw [if_neg (by simp), joinSep]
      rw [h2, joinParts_cons_pair _ _ (by decide), if_neg hcnil]
      -- goal: normalize ("." ++ '/' :: c) = normalize c
      have hsplit3 : splitSlash ('.' :: '/' :: c) = dotSeg :: splitSlash c := by
        simp [splitSlash, consHead, dotSeg]
      have habs1 : absOf ('.' :: '/' :: c) = false := by simp [absOf]
      have htr1 : trailOf ('.' :: '/' :: c) = trailOf c := by
        have heq : ('.' :: '/' :: c) = ['.', '/'] ++ c := rfl
        rw [heq, trailOf_append _ _ hcnil]
      have hdotapp : (dotSeg ++ '/' :: c) = '.' :: '/' :: c := rfl
      rw [hdotapp, normalize_eq_renderNorm ('.' :: '/' :: c) (by simp),
        normalize_eq_renderNorm c hcnil, habs1, hc, htr1, hsplit3, normStack_cons_dot]
  · -- some of q, a, b non-empty
    have hfe : ∀ e ∈ [q, a, b].filter (fun p => decide (p ≠ [])), e ≠ [] := by
      intro e he
      simpa using (List.mem_filter.mp he).2
    have hj1ne : joinSep ([q, a, b].filter (fun p => decide (p ≠ []))) ≠ [] :=
      joinSep_ne_nil _ hne hfe
    have hJP : joinParts [q, a, b]
        = normalize (joinSep ([q, a, b].filter (fun p => decide (p ≠ [])))) := by
      simp only [joinParts]
      rw [if_neg hne]
    rw [hJP]
    by_cases hcnil : c = []
    · subst hcnil
      rw [joinParts_cons_pair _ _ (normalize_ne_nil _), if_pos rfl, normalize_idem _ hj1ne]
      simp only [joinParts]
      rw [show ([q, a, b, ([] : Chars)] : List Chars) = [q, a, b] ++ [[]] from rfl,
        List.filter_append]
      have hfnil : [([] : Chars)].filter (fun p => decide (p ≠ [])) = [] := rfl
      rw [hfnil, List.append_nil, if_neg hne]
    · rw [joinParts_cons_pair _ _ (normalize_ne_nil _), if_neg hcnil]
      have hRHS : joinParts [q, a, b, c]
          = normalize (joinSep ([q, a, b].filter (fun p => decide (p ≠ [])) ++ [c])) := by
        simp only [joinParts]
        rw [show ([q, a, b, c] : List Chars) = [q, a, b] ++ [c] from rfl, List.filter_append]
        have hfc : [c].filter (fun p => decide (p ≠ [])) = [c] := by simp [hcnil]
        rw [hfc, if_neg (by simp)]
      rw [hRHS, joinSep_concat _ _ hne]
      exact normalize_append_normalize _ c hj1ne

/-! ## C4 — injectivity of the derived directories -/

theorem normStack_joinSep_append_plain (allow : Bool) (L : List Chars) (hL : L ≠ [])
    (xs : List Chars) (hxs : ∀ x ∈ xs, plainSeg x) :
    normStack allow (splitSlash (joinSep (L ++ xs)))
      = xs.reverse ++ normStack allow (splitSlash (joinSep L)) := by
  induction xs using List.reverseRecOn with
  | nil => simp
  | append_singleton xs x ih =>
    have hxplain : plainSeg x := hxs x (by simp)
    have hxs' : ∀ y ∈ xs, plainSeg y := fun y hy => hxs y (by simp [hy])
    have hLxs : L ++ xs ≠ [] := by
      intro hcontra
      exact hL ((List.append_eq_nil.mp hcontra).1)
    rw [← List.append_assoc, joinSep_concat _ _ hLxs, splitSlash_append,
      splitSlash_no_slash x hxplain.2.1, normStack_append]
    simp only [List.foldl_cons, List.foldl_nil]
    rw [ih hxs', pushSeg_plain allow _ x ⟨hxplain.1, hxplain.2.2.1, hxplain.2.1⟩ hxplain.2.2.2]
    simp

theorem joinSep_plain_inj_core (L : List Chars) (hLne : ∀ e ∈ L, e ≠ [])
    (l₀ : Chars) (Lt : List Chars) (hLcons : L = l₀ :: Lt) (hl₀ : l₀ ≠ [])
    (xs ys : List Chars) (hxs : ∀ x ∈ xs, plainSeg x) (hys : ∀ y ∈ ys, plainSeg y)
    (heq : normalize (joinSep (L ++ xs)) = normalize (joinSep (L ++ ys))) : xs = ys := by
  have hL : L ≠ [] := by simp [hLcons]
  have habs : absOf (joinSep (L ++ xs)) = absOf (joinSep (L ++ ys)) := by
    rw [hLcons, List.cons_append, List.cons_append, absOf, absOf,
      head?_joinSep _ _ hl₀, head?_joinSep _ _ hl₀]
  have hjx : joinSep (L ++ xs) ≠ [] := by
    refine joinSep_ne_nil _ (by simp [hLcons]) ?_
    intro e he
    rcases List.mem_append.mp he with h1 | h1
    · exact hLne e h1
    · exact (hxs e h1).1
  have hjy : joinSep (L ++ ys) ≠ [] := by
    refine joinSep_ne_nil _ (by simp [hLcons]) ?_
    intro e he
    rcases List.mem_append.mp he with h1 | h1
    · exact hLne e h1
    · exact (hys e h1).1
  have h1 := congrArg
    (fun t => normStack (!absOf (joinSep (L ++ xs))) (splitSlash t)) heq
  simp only at h1
  rw [reparse_normalize _ hjx, habs, reparse_normalize _ hjy] at h1
  rw [normStack_joinSep_append_plain _ L hL xs hxs,
    normStack_joinSep_append_plain _ L hL ys hys] at h1
  exact List.reverse_injective (List.append_cancel_right h1)

theorem joinParts_plain_inj (q K : Chars) (hK : K ≠ []) (xs ys : List Chars)
    (hxs : ∀ x ∈ xs, plainSeg x) (hys : ∀ y ∈ ys, plainSeg y)
    (heq : joinParts (q :: K :: xs) = joinParts (q :: K :: ys)) : xs = ys := by
  have hfilter : ∀ zs : List Chars, (∀ z ∈ zs, plainSeg z) →
      (q :: K :: zs).filter (fun p => decide (p ≠ []))
        = ([q].filter (fun p => decide (p ≠ [])) ++ [K]) ++ zs := by
    intro zs hzs
    have h1 : (q :: K :: zs) = [q] ++ ([K] ++ zs) := rfl
    rw [h1, List.filter_append, List.filter_append,
      (@List.filter_eq_self _ (fun p => decide (p ≠ [])) zs).mpr
        (fun z hz => by simp [(hzs z hz).1]),
      show ([K] : List Chars).filter (fun p => decide (p ≠ [])) = [K] by simp [hK],
      ← List.append_assoc]
  have hJP : ∀ zs, (∀ z ∈ zs, plainSeg z) →
      joinParts (q :: K :: zs)
        = normalize (joinSep (([q].filter (fun p => decide (p ≠ [])) ++ [K]) ++ zs)) := by
    intro zs hzs
    simp only [joinParts]
    rw [hfilter zs hzs, if_neg (by simp)]
  rw [hJP xs hxs, hJP ys hys] at heq
  by_cases hq : q = []
  · have hF : [q].filter (fun p => decide (p ≠ [])) = [] := by simp [hq]
    rw [hF, List.nil_append] at heq
    exact joinSep_plain_inj_core [K] (by intro e he; simp at he; subst he; exact hK)
      K [] rfl hK xs ys hxs hys heq
  · have hF : [q].filter (fun p => decide (p ≠ [])) = [q] := by simp [hq]
    rw [hF] at heq
    refine joinSep_plain_inj_core ([q] ++ [K]) ?_ q [K] rfl hq xs ys hxs hys heq
    intro e he
    simp at he
    rcases he with rfl | rfl
    · exact hq
    · exact hK

/-- Counterexample to C4.  First, `dirForDependencyInstall` does not mention
the dependency name at all, so two triples differing only in the name share
one install directory.  Second, with slash-containing platform/architecture
strings, two distinct triples share both the build *and* the install
directory (`("n","p/q","a")` vs `("n","p","q/a")`). -/
theorem derived_dirs_not_injective_cex :
    (("a".toList, "host".toList, "x86".toList) ≠ ("b".toList, "host".toList, "x86".toList)
      ∧ dirForDependencyInstall ⟨"/r".toList⟩ ⟨"host".toList, "x86".toList⟩
          = dirForDependencyInstall ⟨"/r".toList⟩ ⟨"host".toList, "x86".toList⟩)
    ∧ (("n".toList, "p/q".toList, "a".toList) ≠ ("n".toList, "p".toList, "q/a".toList)
      ∧ dirForDependencyBuild ⟨"/r".toList⟩ "n".toList ⟨"p/q".toList, "a".toList⟩
          = dirForDependencyBuild ⟨"/r".toList⟩ "n".toList ⟨"p".toList, "q/a".toList⟩
      ∧ dirForDependencyInstall ⟨"/r".toList⟩ ⟨"p/q".toList, "a".toList⟩
          = dirForDependencyInstall ⟨"/r".toList⟩ ⟨"p".toList, "q/a".toList⟩) := by
  decide

/-- C4 (amended): over plain segments (non-empty, slash-free, not `"."` or
`".."`), the derived dependency *build* directory is injective in the full
(name, platform, architecture) triple, and the derived dependency *install*
directory — which is independent of the name by construction — is injective
in (platform, architecture). -/
theorem derived_dirs_injective (root : Path) (n₁ n₂ p₁ p₂ a₁ a₂ : Chars)
    (hn₁ : plainSeg n₁) (hn₂ : plainSeg n₂) (hp₁ : plainSeg p₁) (hp₂ : plainSeg p₂)
    (ha₁ : plainSeg a₁) (ha₂ : plainSeg a₂) :
    (dirForDependencyBuild root n₁ ⟨p₁, a₁⟩ = dirForDependencyBuild root n₂ ⟨p₂, a₂⟩
      ↔ (n₁ = n₂ ∧ p₁ = p₂ ∧ a₁ = a₂))
    ∧ (dirForDependencyInstall root ⟨p₁, a₁⟩ = dirForDependencyInstall root ⟨p₂, a₂⟩
      ↔ (p₁ = p₂ ∧ a₁ = a₂)) := by
  constructor
  · constructor
    · intro heq
      have heq' := congrArg Path.path heq
      simp only [dirForDependencyBuild, Path.append] at heq'
      have h1 : [p₁, a₁, n₁] = [p₂, a₂, n₂] := by
        refine joinParts_plain_inj root.path DEPENDENCY_BUILD_DIR.path (by decide) _ _
          ?_ ?_ heq'
        · intro x hx
          simp at hx
          rcases hx with rfl | rfl | rfl
          · exact hp₁
          · exact ha₁
          · exact hn₁
        · intro x hx
          simp at hx
          rcases hx with rfl | rfl | rfl
          · exact hp₂
          · exact ha₂
          · exact hn₂
      simp only [List.cons.injEq, and_true] at h1
      exact ⟨h1.2.2, h1.1, h1.2.1⟩
    · rintro ⟨rfl, rfl, rfl⟩
      rfl
  · constructor
    · intro heq
      have heq' := congrArg Path.path heq
      simp only [dirForDependencyInstall, Path.append] at heq'
      have h1 : [p₁, a₁] = [p₂, a₂] := by
        refine joinParts_plain_inj root.path DEPENDENCY_INSTALL_DIR.path (by decide) _ _
          ?_ ?_ heq'
        · intro x hx
          simp at hx
          rcases hx with rfl | rfl
          · exact hp₁
          · exact ha₁
        · intro x hx
          simp at hx
          rcases hx with rfl | rfl
          · exact hp₂
          · exact ha₂
      simp only [List.cons.injEq, and_true] at h1
      exact ⟨h1.1, h1.2⟩
    · rintro ⟨rfl, rfl⟩
      rfl

/-- Closed instance of `derived_dirs_injective`. -/
theorem derived_dirs_injective_witness :
    dirForDependencyBuild ⟨"/r".toList⟩ "foo".toList ⟨"host".toList, "x86".toList⟩
        = dirForDependencyBuild ⟨"/r".toList⟩ "foo".toList ⟨"host".toList, "x86".toList⟩
      ↔ ("foo".toList = "foo".toList ∧ "host".toList = "host".toList
          ∧ "x86".toList = "x86".toList) :=
  (derived_dirs_injective ⟨"/r".toList⟩ "foo".toList "foo".toList "host".toList
    "host".toList "x86".toList "x86".toList (by decide) (by decide) (by decide)
    (by decide) (by decide) (by decide)).1

/-- Closed instance of `path_append_assoc`. -/
theorem path_append_assoc_witness :
    ((Path.mk "/r".toList).append ["a".toList, "b".toList]).append ["c".toList]
      = (Path.mk "/r".toList).append ["a".toList, "b".toList, "c".toList] :=
  path_append_assoc (Path.mk "/r".toList) "a".toList "b".toList "c".toList
    (Or.inl (by decide))

/-! ## C2 and C3 — pipeline ordering, failure propagation, join barrier -/

theorem histOf_start {n : Nat} (i : Fin n) (s : Stage) :
    histOf i (.active s) = histOf i (.pending s) ++ [.start i s] := by
  cases s <;> rfl

theorem histOf_finish {n : Nat} (i : Fin n) (s : Stage) (ok : Bool) :
    histOf i (if ok then advance s else .failedAt s)
      = histOf i (.active s) ++ [.finish i s ok] := by
  cases s <;> cases ok <;> rfl

theorem inv_init {n : Nat} (env : Fin n → Stage → Bool) : Inv env (initCfg n) := by
  refine ⟨fun i => rfl, ?_, by simp [initCfg], by simp [initCfg]⟩
  intro i s h
  simp [initCfg] at h

theorem inv_step {n : Nat} (env : Fin n → Stage → Bool) {c c' : Cfg n}
    (hinv : Inv env c) (hstep : Step env c c') : Inv env c' := by
  obtain ⟨h1, h2, h3, h4⟩ := hinv
  cases hstep with
  | startStage i s h =>
    refine ⟨?_, ?_, ?_, ?_⟩
    · intro j
      simp only [List.filter_append]
      by_cases hji : j = i
      · subst hji
        have hf1 : (([PipeEvent.start j s] : List (PipeEvent n)).filter (isEvOf j))
            = [PipeEvent.start j s] := by
          simp [isEvOf]
        rw [hf1, Function.update_same, histOf_start, ← h, ← h1 j]
      · have hij : ¬i = j := fun hh => hji hh.symm
        have hf : (([PipeEvent.start i s] : List (PipeEvent n)).filter (isEvOf j)) = [] := by
          simp [isEvOf, hij]
        rw [hf, List.append_nil, Function.update_noteq hji, h1 j]
    · intro j s' hj
      by_cases hji : j = i
      · subst hji
        simp only [Function.update_same] at hj
        cases hj
      · simp only [Function.update_noteq hji] at hj
        exact h2 j s' hj
    · simp only [List.mem_append, List.mem_singleton]
      constructor
      · rintro (hh | hh)
        · exact h3.mp hh
        · cases hh
      · intro hh
        exact Or.inl (h3.mpr hh)
    · intro hr
      exact fun j => absurd (h4 hr i) (by rw [h]; intro hco; cases hco)
  | finishStage i s h =>
    refine ⟨?_, ?_, ?_, ?_⟩
    · intro j
      simp only [List.filter_append]
      by_cases hji : j = i
      · subst hji
        have hf1 : (([PipeEvent.finish j s (env j s)] : List (PipeEvent n)).filter (isEvOf j))
            = [PipeEvent.finish j s (env j s)] := by
          simp [isEvOf]
        rw [hf1, Function.update_same, histOf_finish, ← h, ← h1 j]
      · have hij : ¬i = j := fun hh => hji hh.symm
        have hf : (([PipeEvent.finish i s (env i s)] : List (PipeEvent n)).filter (isEvOf j))
            = [] := by
          simp [isEvOf, hij]
        rw [hf, List.append_nil, Function.update_noteq hji, h1 j]
    · intro j s' hj
      by_cases hji : j = i
      · subst hji
        simp only [Function.update_same] at hj
        cases henv : env j s with
        | false =>
          rw [henv, if_neg (by decide)] at hj
          injection hj with hss
          subst hss
          exact henv
        | true =>
          rw [henv, if_pos rfl] at hj
          cases s <;> simp [advance] at hj
      · simp only [Function.update_noteq hji] at hj
        exact h2 j s' hj
    · simp only [List.mem_append, List.mem_singleton]
      constructor
      · rintro (hh | hh)
        · exact h3.mp hh
        · cases hh
      · intro hh
        exact Or.inl (h3.mpr hh)
    · intro hr
      exact fun j => absurd (h4 hr i) (by rw [h]; intro hco; cases hco)
  | startRoot hall hrs =>
    refine ⟨?_, h2, ?_, fun _ => hall⟩
    · intro j
      simp only [List.filter_append]
      have hf : (([PipeEvent.rootBuild] : List (PipeEvent n)).filter (isEvOf j)) = [] := by
        simp [isEvOf]
      rw [hf, List.append_nil, h1 j]
    · simp

theorem reach_inv {n : Nat} (env : Fin n → Stage → Bool) {c : Cfg n}
    (h : Reach env c) : Inv env c := by
  induction h with
  | init => exact inv_init env
  | step hr hs ih => exact inv_step env ih hs

theorem mem_trace_iff_mem_hist {n : Nat} {env : Fin n → Stage → Bool} {c : Cfg n}
    (hinv : Inv env c) (i : Fin n) (e : PipeEvent n) (he : isEvOf i e = true) :
    e ∈ c.trace ↔ e ∈ histOf i (c.pipes i) := by
  rw [← hinv.1 i]
  simp [List.mem_filter, he]

theorem prec_nil {n : Nat} (e₁ e₂ : PipeEvent n) : Prec e₁ e₂ [] := by
  intro t₁ t₂ h
  exact absurd h (by simp)

theorem prec_append {n : Nat} (e₁ e₂ ev : PipeEvent n) (tr : List (PipeEvent n))
    (hp : Prec e₁ e₂ tr) (hev : ev = e₂ → e₁ ∈ tr) : Prec e₁ e₂ (tr ++ [ev]) := by
  intro t₁ t₂ hsplit
  rcases List.eq_nil_or_concat t₂ with rfl | ⟨t₂', a, rfl⟩
  · obtain ⟨hh1, hh2⟩ := List.append_inj' hsplit rfl
    have hev' : ev = e₂ := by simpa using hh2
    rw [← hh1]
    exact hev hev'
  · have hsplit' : tr ++ [ev] = (t₁ ++ e₂ :: t₂') ++ [a] := by
      rw [hsplit]
      simp
    obtain ⟨hh1, hh2⟩ := List.append_inj' hsplit' rfl
    exact hp t₁ t₂' hh1

theorem reach_precInv {n : Nat} (env : Fin n → Stage → Bool) {c : Cfg n}
    (h : Reach env c) : PrecInv c := by
  induction h with
  | init => exact fun i => ⟨prec_nil _ _, prec_nil _ _, prec_nil _ _⟩
  | @step c c' hr hs ih =>
    have hinv := reach_inv env hr
    cases hs with
    | startStage i s hp =>
      intro j
      refine ⟨prec_append _ _ _ _ (ih j).1 ?_, prec_append _ _ _ _ (ih j).2.1 ?_,
        prec_append _ _ _ _ (ih j).2.2 ?_⟩
      · intro hev
        rw [PipeEvent.start.injEq] at hev
        obtain ⟨rfl, rfl⟩ := hev
        exact (mem_trace_iff_mem_hist hinv i _ (by simp [isEvOf])).mpr
          (by rw [hp]; simp [histOf])
      · intro hev
        rw [PipeEvent.start.injEq] at hev
        obtain ⟨rfl, rfl⟩ := hev
        exact (mem_trace_iff_mem_hist hinv i _ (by simp [isEvOf])).mpr
          (by rw [hp]; simp [histOf])
      · intro hev
        cases hev
    | finishStage i s hp =>
      intro j
      refine ⟨prec_append _ _ _ _ (ih j).1 ?_, prec_append _ _ _ _ (ih j).2.1 ?_,
        prec_append _ _ _ _ (ih j).2.2 ?_⟩
      · intro hev
        cases hev
      · intro hev
        cases hev
      · intro hev
        cases hev
    | startRoot hall hrs =>
      intro j
      refine ⟨prec_append _ _ _ _ (ih j).1 ?_, prec_append _ _ _ _ (ih j).2.1 ?_,
        prec_append _ _ _ _ (ih j).2.2 ?_⟩
      · intro hev
        cases hev
      · intro hev
        cases hev
      · intro hev
        exact (mem_trace_iff_mem_hist hinv j _ (by simp [isEvOf])).mpr
          (by rw [hall j]; simp [histOf])

theorem finish_false_state {n : Nat} {env : Fin n → Stage → Bool} {c : Cfg n}
    (hinv : Inv env c) (i : Fin n) (s : Stage)
    (hmem : PipeEvent.finish i s false ∈ c.trace) : c.pipes i = .failedAt s := by
  have h := (mem_trace_iff_mem_hist hinv i _ (by simp [isEvOf])).mp hmem
  rcases hps : c.pipes i with s' | s' | s' | _ <;> rw [hps] at h
  · cases s' <;> cases s <;> simp [histOf] at h
  · cases s' <;> cases s <;> simp [histOf] at h
  · cases s' <;> cases s <;> simp [histOf] at h <;> rfl
  · cases s <;> simp [histOf] at h

theorem reachFrom_trans {n : Nat} {env : Fin n → Stage → Bool} {a b c : Cfg n}
    (h1 : ReachFrom env a b) (h2 : ReachFrom env b c) : ReachFrom env a c := by
  induction h2 with
  | refl => exact h1
  | step h2' hs ih => exact ReachFrom.step ih hs

theorem complete_pending_install {n : Nat} (env : Fin n → Stage → Bool) (k : Fin n)
    (henv : env k .install = true) (c : Cfg n) (h : c.pipes k = .pending .install) :
    ∃ c', ReachFrom env c c' ∧ c'.pipes k = .done := by
  refine ⟨_, ReachFrom.step (ReachFrom.step (ReachFrom.refl c)
    (Step.startStage c k .install h)) (Step.finishStage _ k .install ?_), ?_⟩
  · simp [Function.update_same]
  · simp [Function.update_same, henv, advance]

theorem complete_pending_build {n : Nat} (env : Fin n → Stage → Bool) (k : Fin n)
    (henv : ∀ s, env k s = true) (c : Cfg n) (h : c.pipes k = .pending .build) :
    ∃ c', ReachFrom env c c' ∧ c'.pipes k = .done := by
  obtain ⟨c2, hr2, hp2⟩ : ∃ c2, ReachFrom env c c2 ∧ c2.pipes k = .pending .install := by
    refine ⟨_, ReachFrom.step (ReachFrom.step (ReachFrom.refl c)
      (Step.startStage c k .build h)) (Step.finishStage _ k .build ?_), ?_⟩
    · simp [Function.update_same]
    · simp [Function.update_same, henv .build, advance]
  obtain ⟨c3, hr3, hp3⟩ := complete_pending_install env k (henv .install) c2 hp2
  exact ⟨c3, reachFrom_trans hr2 hr3, hp3⟩

theorem complete_pending_download {n : Nat} (env : Fin n → Stage → Bool) (k : Fin n)
    (henv : ∀ s, env k s = true) (c : Cfg n) (h : c.pipes k = .pending .download) :
    ∃ c', ReachFrom env c c' ∧ c'.pipes k = .done := by
  obtain ⟨c2, hr2, hp2⟩ : ∃ c2, ReachFrom env c c2 ∧ c2.pipes k = .pending .build := by
    refine ⟨_, ReachFrom.step (ReachFrom.step (ReachFrom.refl c)
      (Step.startStage c k .download h)) (Step.finishStage _ k .download ?_), ?_⟩
    · simp [Function.update_same]
    · simp [Function.update_same, henv .download, advance]
  obtain ⟨c3, hr3, hp3⟩ := complete_pending_build env k henv c2 hp2
  exact ⟨c3, reachFrom_trans hr2 hr3, hp3⟩

theorem pipeline_completes {n : Nat} (env : Fin n → Stage → Bool) (k : Fin n)
    (henv : ∀ s, env k s = true) (c : Cfg n)
    (hnf : ∀ s, c.pipes k ≠ .failedAt s) :
    ∃ c', ReachFrom env c c' ∧ c'.pipes k = .done := by
  rcases hst : c.pipes k with s | s | s | _
  · cases s with
    | download => exact complete_pending_download env k henv c hst
    | build => exact complete_pending_build env k henv c hst
    | install => exact complete_pending_install env k (henv .install) c hst
  · -- active s: finish the running stage, then continue
    have hfin : ∃ c2, ReachFrom env c c2 ∧ c2.pipes k = advance s := by
      refine ⟨_, ReachFrom.step (ReachFrom.refl c) (Step.finishStage c k s hst), ?_⟩
      simp [Function.update_same, henv s]
    obtain ⟨c2, hr2, hp2⟩ := hfin
    cases s with
    | download =>
      obtain ⟨c3, hr3, hp3⟩ := complete_pending_build env k henv c2 hp2
      exact ⟨c3, reachFrom_trans hr2 hr3, hp3⟩
    | build =>
      obtain ⟨c3, hr3, hp3⟩ := complete_pending_install env k (henv .install) c2 hp2
      exact ⟨c3, reachFrom_trans hr2 hr3, hp3⟩
    | install => exact ⟨c2, hr2, hp2⟩
  · exact absurd hst (hnf s)
  · exact ⟨c, ReachFrom.refl c, hst⟩

/-- C3: in every reachable configuration of the orchestration model, each
dependency pipeline is strictly sequential and failure-aborted:
(1) `build` never starts before `download`'s successful finish, and `install`
never before `build`'s successful finish (the finish event precedes the start
event in the trace);  (2) a failed stage leaves the pipeline in the failed
state — the failure propagates as the pipeline's outcome — and the later
stages are never started:  after `finish download false` neither `build` nor
`install` ever starts, and after `finish build false` `install` never
starts. -/
theorem getDependency_stage_order {n : Nat} (env : Fin n → Stage → Bool) (c : Cfg n)
    (hreach : Reach env c) (i : Fin n) :
    (Prec (.finish i .download true) (.start i .build) c.trace
      ∧ Prec (.finish i .build true) (.start i .install) c.trace)
    ∧ (∀ s : Stage, PipeEvent.finish i s false ∈ c.trace →
        c.pipes i = .failedAt s
        ∧ (s = .download →
            PipeEvent.start i .build ∉ c.trace ∧ PipeEvent.start i .install ∉ c.trace)
        ∧ (s = .build → PipeEvent.start i .install ∉ c.trace)) := by
  have hinv := reach_inv env hreach
  have hprec := reach_precInv env hreach
  refine ⟨⟨(hprec i).1, (hprec i).2.1⟩, ?_⟩
  intro s hmem
  have hfail := finish_false_state hinv i s hmem
  refine ⟨hfail, ?_, ?_⟩
  · rintro rfl
    constructor
    · intro hco
      have := (mem_trace_iff_mem_hist hinv i _ (by simp [isEvOf])).mp hco
      rw [hfail] at this
      simp [histOf] at this
    · intro hco
      have := (mem_trace_iff_mem_hist hinv i _ (by simp [isEvOf])).mp hco
      rw [hfail] at this
      simp [histOf] at this
  · rintro rfl
    intro hco
    have := (mem_trace_iff_mem_hist hinv i _ (by simp [isEvOf])).mp hco
    rw [hfail] at this
    simp [histOf] at this

/-- Closed instance of `getDependency_stage_order` at the initial
configuration of a two-pipeline run. -/
theorem getDependency_stage_order_witness :
    Prec (.finish (0 : Fin 2) .download true) (.start (0 : Fin 2) .build)
      (initCfg 2).trace :=
  (getDependency_stage_order (fun _ _ => true) (initCfg 2) Reach.init 0).1.1

/-- C2: in every reachable configuration of the orchestration model,
(1) if the root `Project.build` has been invoked, then every dependency
pipeline has finished its install successfully, each such finish precedes the
root-build invocation in the trace, and no stage of any pipeline ever failed
— the root build is never invoked when a dependency pipeline failed;
(2) a failure in one pipeline does not halt the others: from any reachable
configuration, any pipeline whose own stages succeed can still run to
completion, whatever the states of the other pipelines. -/
theorem root_build_barrier {n : Nat} (env : Fin n → Stage → Bool) (c : Cfg n)
    (hreach : Reach env c) :
    (PipeEvent.rootBuild ∈ c.trace →
        (∀ i, PipeEvent.finish i .install true ∈ c.trace
          ∧ Prec (.finish i .install true) .rootBuild c.trace)
        ∧ (∀ i s, PipeEvent.finish i s false ∉ c.trace))
    ∧ (∀ k, (∀ s, env k s = true) →
        ∃ c', ReachFrom env c c' ∧ c'.pipes k = .done) := by
  have hinv := reach_inv env hreach
  have hprec := reach_precInv env hreach
  constructor
  · intro hroot
    have hstarted : c.rootStarted = true := hinv.2.2.1.mp hroot
    have hall : ∀ i, c.pipes i = .done := hinv.2.2.2 hstarted
    refine ⟨?_, ?_⟩
    · intro i
      refine ⟨?_, (hprec i).2.2⟩
      exact (mem_trace_iff_mem_hist hinv i _ (by simp [isEvOf])).mpr
        (by rw [hall i]; simp [histOf])
    · intro i s hco
      have := finish_false_state hinv i s hco
      rw [hall i] at this
      cases this
  · intro k henv
    refine pipeline_completes env k henv c ?_
    intro s hco
    have := hinv.2.1 k s hco
    rw [henv s] at this
    cases this

/-- Closed instance of `root_build_barrier` at the initial configuration of a
two-pipeline run: the pipeline can run to completion. -/
theorem root_build_barrier_witness :
    ∃ c', ReachFrom (fun _ _ => true) (initCfg 2) c' ∧ c'.pipes (0 : Fin 2) = .done :=
  (root_build_barrier (fun _ _ => true) (initCfg 2) Reach.init).2 0 (fun _ => rfl)

end Raft


